/-
Verification of the query/update expression algebra and the structural delta
engine of the conjure object-document mapper (packages `mongoalchemy` and
`conjure`).

The development shallowly embeds the Python sources:
  * `mongoalchemy/spec.py` — `QuerySpecification`, its subclasses and their
    `__invert__`/`__and__`/`__or__`/`compile`, and `UpdateSpecification` with
    its `__and__` merge and `compile`;
  * `conjure/fields.py` — `ListField.deltas` / `EmbeddedDocumentField.deltas`,
    `ListField.from_json` / `EmbeddedDocumentField.from_json`,
    `ListField.set_field` / `EmbeddedDocumentField.set_field`;
  * `conjure/documents.py` — `Document.__init__` snapshotting (`track_changes`).

Representation choices, documented once here:
  * Python values that can appear in documents are embedded as `JVal`
    (null / bool / int / string / list / dict).  Lists and dicts are the
    mutually inductive `JArr` / `JObj` so that all functions are structurally
    recursive and kernel-computable.  Python `dict` is modelled as an
    association list in insertion order; Python dict assignment `d[k] = v`
    updates the first occurrence in place or appends a fresh key at the end,
    which is exactly `JObj.set` below.
  * `mongoalchemy` expression dictionaries key their entries by strings of the
    form `"field:op1:op2"`.  Field names come from the schema layer and never
    contain `':'`, so the string key round-trips through `_parse_expression`;
    the embedding stores the parsed pair (field, operator list) directly.
  * Machine integers do not occur; all arithmetic is on unbounded `Int`, as in
    Python.
-/
import Mathlib

set_option maxHeartbeats 1600000

namespace Conjure

/-! ## JSON-like values

`JVal` is the value universe of both packages: the operands stored in query
expressions, the contents of a record's `_data`, and the wire documents
produced by `compile`/`to_json`.  `JArr`/`JObj` are lists and insertion-ordered
dictionaries. -/

mutual

inductive JVal where
  | null : JVal
  | b : Bool → JVal
  | i : Int → JVal
  | s : String → JVal
  | arr : JArr → JVal
  | obj : JObj → JVal
deriving DecidableEq

inductive JArr where
  | nil : JArr
  | cons : JVal → JArr → JArr
deriving DecidableEq

inductive JObj where
  | nil : JObj
  | cons : String → JVal → JObj → JObj
deriving DecidableEq

end

def JArr.ofList : List JVal → JArr
  | [] => .nil
  | x :: xs => .cons x (JArr.ofList xs)

def JArr.toList : JArr → List JVal
  | .nil => []
  | .cons x xs => x :: xs.toList

def JArr.append : JArr → JArr → JArr
  | .nil, ys => ys
  | .cons x xs, ys => .cons x (xs.append ys)

def JArr.map (f : JVal → JVal) : JArr → JArr
  | .nil => .nil
  | .cons x xs => .cons (f x) (JArr.map f xs)

def JArr.length : JArr → Nat
  | .nil => 0
  | .cons _ xs => xs.length + 1

def JObj.ofList : List (String × JVal) → JObj
  | [] => .nil
  | (k, v) :: rest => .cons k v (JObj.ofList rest)

def JObj.toList : JObj → List (String × JVal)
  | .nil => []
  | .cons k v rest => (k, v) :: rest.toList

/-- Python `d[k]` / `d.get(k)`: first occurrence wins. -/
def JObj.lookup (k : String) : JObj → Option JVal
  | .nil => none
  | .cons k' v rest => if k' = k then some v else rest.lookup k

/-- Python `k in d`. -/
def JObj.hasKey (k : String) : JObj → Bool
  | .nil => false
  | .cons k' _ rest => k' = k || rest.hasKey k

/-- Python `d[k] = v`: overwrite in place, else append at the end. -/
def JObj.set (k : String) (v : JVal) : JObj → JObj
  | .nil => .cons k v .nil
  | .cons k' v' rest => if k' = k then .cons k' v rest else .cons k' v' (rest.set k v)

/-- Python `del d[k]` (first occurrence). -/
def JObj.erase (k : String) : JObj → JObj
  | .nil => .nil
  | .cons k' v rest => if k' = k then rest else .cons k' v (rest.erase k)

def JObj.append : JObj → JObj → JObj
  | .nil, o => o
  | .cons k v rest, o => .cons k v (rest.append o)

def JObj.keys : JObj → List String
  | .nil => []
  | .cons k _ rest => k :: rest.keys

/-- Python truthiness of a value (`if not x: ...`).  A record/document object
defines `__len__` as the number of populated fields, so an empty embedded
document is falsy just like an empty dict. -/
def truthy : JVal → Bool
  | .null => false
  | .b v => v
  | .i n => n != 0
  | .s v => v ≠ ""
  | .arr .nil => false
  | .arr _ => true
  | .obj .nil => false
  | .obj _ => true

/-! ## mongoalchemy/spec.py — query specifications

A `QuerySpecification` (src/mongoalchemy/spec.py:75) holds a dict
`expressions` keyed by `"field:op1:op2"`; the embedding stores the parsed
(field, operator-chain) pair, see the file header.  The `__or__` combinator
stores a Python list of specification objects as the value of the `':or'`
key, hence the mutual `QVal`/`SpecList`.  The concrete subclass of a
specification decides which `__invert__` runs, so it is carried as `QCls`. -/

inductive QCls where
  | base : QCls
  | equal : QCls
  | notEqual : QCls
  | lessThan : QCls
  | greaterThan : QCls
  | lessThanEqual : QCls
  | greaterThanEqual : QCls
  | modC : QCls
  | inC : QCls
  | ninC : QCls
  | allC : QCls
  | sizeC : QCls
  | existsC : QCls
  | typeC : QCls
  | whereC : QCls
  | sliceC : QCls
deriving DecidableEq

mutual

inductive QVal where
  | j : JVal → QVal
  | specs : SpecList → QVal
deriving DecidableEq

inductive QExprs where
  | nil : QExprs
  | cons : String → List String → QVal → QExprs → QExprs
deriving DecidableEq

inductive SpecList where
  | nil : SpecList
  | cons : QCls → QExprs → SpecList → SpecList
deriving DecidableEq

end

structure QuerySpecification where
  cls : QCls
  exprs : QExprs
deriving DecidableEq

def SpecList.append : SpecList → SpecList → SpecList
  | .nil, l => l
  | .cons c e rest, l => .cons c e (rest.append l)

def QExprs.hasKey (k : String) (ops : List String) : QExprs → Bool
  | .nil => false
  | .cons k' ops' _ rest => (k' = k && ops' = ops) || rest.hasKey k ops

/-- Python `spec[expr] = v` on the expressions dict. -/
def QExprs.set (k : String) (ops : List String) (v : QVal) : QExprs → QExprs
  | .nil => .cons k ops v .nil
  | .cons k' ops' v' rest =>
    if k' = k ∧ ops' = ops then .cons k' ops' v rest
    else .cons k' ops' v' (rest.set k ops v)

/-- `spec[':or'].extend(other[':or'])` (src/mongoalchemy/spec.py:157): mutate
the stored list of specifications in place.  The or-value is always a list of
specifications for expressions built by the public api; anything else is left
unchanged. -/
def QExprs.extendOr (k : String) (ops : List String) (v : QVal) : QExprs → QExprs
  | .nil => .nil
  | .cons k' ops' v' rest =>
    if k' = k ∧ ops' = ops then
      match v', v with
      | .specs l1, .specs l2 => .cons k' ops' (.specs (l1.append l2)) rest
      | _, _ => .cons k' ops' v' rest
    else .cons k' ops' v' (rest.extendOr k ops v)

/-- `QuerySpecification._invert_op` (src/mongoalchemy/spec.py:117): toggle
`op` in every expression's operator chain — `ops.insert(0, op)` when absent,
`ops.remove(op)` when present. -/
def QExprs.invertOp (op : String) : QExprs → QExprs
  | .nil => .nil
  | .cons k ops v rest =>
    .cons k (if op ∈ ops then ops.erase op else op :: ops) v (rest.invertOp op)

/-- `ops[ops.index(old_op)] = new_op`: replace the first occurrence;
`list.index` raises `ValueError` (= `none`) when absent. -/
def replaceFirst (a b : String) : List String → Option (List String)
  | [] => none
  | x :: xs => if x = a then some (b :: xs) else (replaceFirst a b xs).map (x :: ·)

/-- `QuerySpecification._swap_op` (src/mongoalchemy/spec.py:134).  `none`
models the `ValueError` escaping from `ops.index`. -/
def QExprs.swapOp (oldOp newOp : String) : QExprs → Option QExprs
  | .nil => some .nil
  | .cons k ops v rest => do
    let ops' ← replaceFirst oldOp newOp ops
    let rest' ← rest.swapOp oldOp newOp
    pure (.cons k ops' v rest')

/-- `Exists.__invert__` flips each stored value with Python `not`
(src/mongoalchemy/spec.py:210). -/
def qnot : QVal → QVal
  | .j v => .j (.b (!truthy v))
  | .specs .nil => .j (.b true)
  | .specs _ => .j (.b false)

def QExprs.mapNot : QExprs → QExprs
  | .nil => .nil
  | .cons k ops v rest => .cons k ops (qnot v) (rest.mapNot)

/-- `__invert__` dispatch over the concrete specification class
(src/mongoalchemy/spec.py:166-226).  `none` models an escaping `ValueError`
from `_swap_op`. -/
def QuerySpecification.invert (q : QuerySpecification) : Option QuerySpecification :=
  match q.cls with
  | .equal => some ⟨.notEqual, q.exprs.invertOp "ne"⟩
  | .notEqual => some ⟨.lessThan, q.exprs.invertOp "ne"⟩
  | .lessThan => (q.exprs.swapOp "lt" "gt").map (⟨.greaterThanEqual, ·⟩)
  | .greaterThan => (q.exprs.swapOp "gt" "lt").map (⟨.greaterThanEqual, ·⟩)
  | .lessThanEqual => (q.exprs.swapOp "lte" "gte").map (⟨.greaterThanEqual, ·⟩)
  | .greaterThanEqual => (q.exprs.swapOp "gte" "lte").map (⟨.lessThanEqual, ·⟩)
  | .inC => (q.exprs.swapOp "in" "nin").map (⟨.ninC, ·⟩)
  | .ninC => (q.exprs.swapOp "nin" "in").map (⟨.inC, ·⟩)
  | .existsC => some ⟨.existsC, q.exprs.mapNot⟩
  | _ => some ⟨.base, q.exprs.invertOp "not"⟩

/-- `invert(invert(x))`: Python `~~x`. -/
def invertTwice (q : QuerySpecification) : Option QuerySpecification :=
  q.invert.bind QuerySpecification.invert

/-- `QuerySpecification.__or__` (src/mongoalchemy/spec.py:147):
`QuerySpecification(['', 'or', [self.clone(), other.clone()]])`, i.e. a fresh
base-class specification with the single key `':or'` holding the two operand
objects. -/
def QuerySpecification.orQ (a b : QuerySpecification) : QuerySpecification :=
  ⟨.base, .cons "" ["or"] (.specs (.cons a.cls a.exprs (.cons b.cls b.exprs .nil))) .nil⟩

/-- One step of `QuerySpecification.__and__` (src/mongoalchemy/spec.py:152):
same-key `':or'` entries are extended in place, every other incoming entry is
assigned. -/
def QExprs.andStep (acc : QExprs) (k : String) (ops : List String) (v : QVal) : QExprs :=
  if acc.hasKey k ops ∧ k = "" ∧ ops = ["or"] then acc.extendOr k ops v
  else acc.set k ops v

def QExprs.andFold (acc : QExprs) : QExprs → QExprs
  | .nil => acc
  | .cons k ops v rest => QExprs.andFold (acc.andStep k ops v) rest

/-- `QuerySpecification.__and__`: clone of the left operand, folding the
right operand's expressions into it; the result keeps the left class. -/
def QuerySpecification.andQ (a b : QuerySpecification) : QuerySpecification :=
  ⟨a.cls, a.exprs.andFold b.exprs⟩

/-! ### Compilation

`QuerySpecification.compile` (src/mongoalchemy/spec.py:76) produces a Python
dict whose values are literals, nested `{'$op': ...}` dicts, or — for the
`':or'` key — the stored list of *specification objects* left as they are.
`CVal`/`CObj` is that output universe. -/

mutual

inductive CVal where
  | j : JVal → CVal
  | obj : CObj → CVal
  | specs : SpecList → CVal
deriving DecidableEq

inductive CObj where
  | nil : CObj
  | cons : String → CVal → CObj → CObj
deriving DecidableEq

end

def CObj.lookup (k : String) : CObj → Option CVal
  | .nil => none
  | .cons k' v rest => if k' = k then some v else rest.lookup k

def CObj.set (k : String) (v : CVal) : CObj → CObj
  | .nil => .cons k v .nil
  | .cons k' v' rest => if k' = k then .cons k' v rest else .cons k' v' (rest.set k v)

def qvalToC : QVal → CVal
  | .j v => .j v
  | .specs l => .specs l

/-- `current = d[key] = d.get(key, {})` followed by indexing: an existing
value must be a dict (`none` models the `TypeError` raised by `current[...]`
on a non-dict). -/
def CObj.getObjAt (d : CObj) (k : String) : Option CObj :=
  match d.lookup k with
  | none => some .nil
  | some (.obj l) => some l
  | some _ => none

/-- The inner loop of `compile` for a non-empty operator chain: walk/create
`$op` dicts outermost-first and assign the value at the innermost position
(`path[-2][last_key] = val`). -/
def CObj.setChain (cur : CObj) : List String → CVal → Option CObj
  | [], _ => none
  | [op], v => some (cur.set ("$" ++ op) v)
  | op :: op' :: rest, v => do
    let inner ← cur.getObjAt ("$" ++ op)
    let inner' ← inner.setChain (op' :: rest) v
    pure (cur.set ("$" ++ op) (.obj inner'))

/-- One expression of `compile`: a bare key (`ops = []`) is assigned directly
(`{field: operand}` shorthand), otherwise the `$`-operator chain is built
under the key. -/
def CObj.compileStep (d : CObj) (k : String) (ops : List String) (v : CVal) : Option CObj :=
  match ops with
  | [] => some (d.set k v)
  | _ => do
    let inner ← d.getObjAt k
    let inner' ← inner.setChain ops v
    pure (d.set k (.obj inner'))

def QExprs.compileFold (d : CObj) : QExprs → Option CObj
  | .nil => some d
  | .cons k ops v rest => do
    let d' ← d.compileStep k ops (qvalToC v)
    rest.compileFold d'

/-- `QuerySpecification.compile` (src/mongoalchemy/spec.py:76-95). -/
def QuerySpecification.compile (q : QuerySpecification) : Option CObj :=
  q.exprs.compileFold .nil

/-! ### Leaf constructors

Modelled from the spec: the comparison operators that build leaves live in
`mongoalchemy/operations.py`, which is not under src/; the class and the
stored `(field, operator-chain, operand)` of each leaf are fixed by the
compiled forms asserted in src/tests/spec.py:27-125 and by spec §4.3. -/

def eqLeaf (f : String) (v : JVal) : QuerySpecification := ⟨.equal, .cons f [] (.j v) .nil⟩

def neLeaf (f : String) (v : JVal) : QuerySpecification := ⟨.notEqual, .cons f ["ne"] (.j v) .nil⟩

def ltLeaf (f : String) (v : JVal) : QuerySpecification := ⟨.lessThan, .cons f ["lt"] (.j v) .nil⟩

def gtLeaf (f : String) (v : JVal) : QuerySpecification := ⟨.greaterThan, .cons f ["gt"] (.j v) .nil⟩

def lteLeaf (f : String) (v : JVal) : QuerySpecification :=
  ⟨.lessThanEqual, .cons f ["lte"] (.j v) .nil⟩

def gteLeaf (f : String) (v : JVal) : QuerySpecification :=
  ⟨.greaterThanEqual, .cons f ["gte"] (.j v) .nil⟩

def inLeaf (f : String) (v : JVal) : QuerySpecification := ⟨.inC, .cons f ["in"] (.j v) .nil⟩

def ninLeaf (f : String) (v : JVal) : QuerySpecification := ⟨.ninC, .cons f ["nin"] (.j v) .nil⟩

def existsLeaf (f : String) (v : Bool) : QuerySpecification :=
  ⟨.existsC, .cons f ["exists"] (.j (.b v)) .nil⟩

def modLeaf (f : String) (v : JVal) : QuerySpecification := ⟨.modC, .cons f ["mod"] (.j v) .nil⟩

def allLeaf (f : String) (v : JVal) : QuerySpecification := ⟨.allC, .cons f ["all"] (.j v) .nil⟩

def sizeLeaf (f : String) (v : JVal) : QuerySpecification := ⟨.sizeC, .cons f ["size"] (.j v) .nil⟩

def typeLeaf (f : String) (v : JVal) : QuerySpecification := ⟨.typeC, .cons f ["type"] (.j v) .nil⟩

def whereLeaf (f : String) (v : JVal) : QuerySpecification :=
  ⟨.whereC, .cons f ["where"] (.j v) .nil⟩

def sliceLeaf (f : String) (v : JVal) : QuerySpecification :=
  ⟨.sliceC, .cons f ["slice"] (.j v) .nil⟩

/-- The single-operator leaves, as an enumeration (used to quantify over
"any two distinct operators"). -/
inductive QOp where
  | ne : QOp
  | lt : QOp
  | lte : QOp
  | gt : QOp
  | gte : QOp
  | inO : QOp
  | nin : QOp
  | modO : QOp
  | allO : QOp
  | sizeO : QOp
  | existsO : QOp
  | typeO : QOp
  | whereO : QOp
  | sliceO : QOp
deriving DecidableEq

def QOp.str : QOp → String
  | .ne => "ne"
  | .lt => "lt"
  | .lte => "lte"
  | .gt => "gt"
  | .gte => "gte"
  | .inO => "in"
  | .nin => "nin"
  | .modO => "mod"
  | .allO => "all"
  | .sizeO => "size"
  | .existsO => "exists"
  | .typeO => "type"
  | .whereO => "where"
  | .sliceO => "slice"

def QOp.cls : QOp → QCls
  | .ne => .notEqual
  | .lt => .lessThan
  | .lte => .lessThanEqual
  | .gt => .greaterThan
  | .gte => .greaterThanEqual
  | .inO => .inC
  | .nin => .ninC
  | .modO => .modC
  | .allO => .allC
  | .sizeO => .sizeC
  | .existsO => .existsC
  | .typeO => .typeC
  | .whereO => .whereC
  | .sliceO => .sliceC

/-- A single-operator leaf on field `f` with operand `v`. -/
def leaf1 (o : QOp) (f : String) (v : JVal) : QuerySpecification :=
  ⟨o.cls, .cons f [o.str] (.j v) .nil⟩

/-! ## mongoalchemy/spec.py — update specifications

An `UpdateSpecification` (src/mongoalchemy/spec.py:46) keys its expressions
dict by `"op:field"`; the embedding stores the parsed (op, field) pair (update
operator names never contain `':'`). -/

structure UpdateSpecification where
  exprs : List ((String × String) × JVal)
deriving DecidableEq

def ulookup (k : String × String) : List ((String × String) × JVal) → Option JVal
  | [] => none
  | (k', v) :: rest => if k' = k then some v else ulookup k rest

def uset (k : String × String) (v : JVal) :
    List ((String × String) × JVal) → List ((String × String) × JVal)
  | [] => [(k, v)]
  | (k', v') :: rest => if k' = k then (k', v) :: rest else (k', v') :: uset k v rest

/-- Python `spec[key] += other[key]` / `spec[key].extend(...)` on the stored
operands: addition of numbers, concatenation of lists; anything else raises
`TypeError` (= `none`). -/
def pyAdd : JVal → JVal → Option JVal
  | .i m, .i n => some (.i (m + n))
  | .s a, .s b => some (.s (a ++ b))
  | .arr a, .arr b => some (.arr (a.append b))
  | _, _ => none

/-- One step of `UpdateSpecification.__and__` (src/mongoalchemy/spec.py:59):
for a key already present, `pushAll:`/`pullAll:` operands are concatenated
and `inc:` operands are summed; every other incoming entry (fresh key or
same-key other operator) is assigned. -/
def umergeStep (acc : List ((String × String) × JVal)) (k : String × String) (v : JVal) :
    Option (List ((String × String) × JVal)) :=
  match ulookup k acc with
  | some old =>
    if k.1 = "pushAll" ∨ k.1 = "pullAll" then (pyAdd old v).map (fun w => uset k w acc)
    else if k.1 = "inc" then (pyAdd old v).map (fun w => uset k w acc)
    else some (uset k v acc)
  | none => some (uset k v acc)

def umergeFold (acc : List ((String × String) × JVal)) :
    List ((String × String) × JVal) → Option (List ((String × String) × JVal))
  | [] => some acc
  | (k, v) :: rest => do
    let acc' ← umergeStep acc k v
    umergeFold acc' rest

/-- `UpdateSpecification.__and__`: merge the right operand into a clone of the
left one. -/
def UpdateSpecification.andU (a b : UpdateSpecification) : Option UpdateSpecification :=
  (umergeFold a.exprs b.exprs).map UpdateSpecification.mk

/-- `UpdateSpecification.compile` (src/mongoalchemy/spec.py:47): group the
entries as `{'$op': {field: operand}}`. -/
def ucompileFold (d : JObj) : List ((String × String) × JVal) → JObj
  | [] => d
  | ((op, k), v) :: rest =>
    let inner : JObj :=
      match d.lookup ("$" ++ op) with
      | some (.obj o) => o
      | _ => .nil
    ucompileFold (d.set ("$" ++ op) (.obj (inner.set k v))) rest

def UpdateSpecification.compile (u : UpdateSpecification) : JObj :=
  ucompileFold .nil u.exprs

/-- Modelled from the spec: the update-term constructors live in
`mongoalchemy/operations.py`, which is not under src/; the stored
(operator, field, operand) of each term is fixed by the compiled forms
asserted in src/tests/spec.py:91-125 and spec §4.3 (`dec(n)` builds an `inc`
with operand `-n`, `unset` stores operand `1`). -/
def incTerm (f : String) (n : Int) : UpdateSpecification := ⟨[(("inc", f), .i n)]⟩

def decTerm (f : String) (n : Int) : UpdateSpecification := incTerm f (-n)

def setTerm (f : String) (v : JVal) : UpdateSpecification := ⟨[(("set", f), v)]⟩

def unsetTerm (f : String) : UpdateSpecification := ⟨[(("unset", f), .i 1)]⟩

def pushAllTerm (f : String) (v : JArr) : UpdateSpecification := ⟨[(("pushAll", f), .arr v)]⟩

/-! ## conjure/fields.py — schemas and records

A record type is a list of named field descriptors; a field is a scalar, a
list of fields, or an embedded document (`conjure/fields.py`:
`ListField`, `EmbeddedDocumentField`, scalar `BaseField` subclasses).  The
scalar kinds (string/int/bool/datetime) only differ in coercion/validation,
which spec §1 excludes; they are collapsed into one `scalar` constructor
whose values are already wire values.  A record's `_data` dict is a `JObj`
holding only populated fields (assigning `None` removes the entry, see
src/tests/test_documents.py:435-436). -/

mutual

inductive FTy where
  | scalar : FTy
  | lst : FTy → FTy
  | doc : Fields → FTy
deriving DecidableEq

inductive Fields where
  | nil : Fields
  | cons : String → FTy → Fields → Fields
deriving DecidableEq

end

def Fields.lookup (n : String) : Fields → Option FTy
  | .nil => none
  | .cons n' ty rest => if n' = n then some ty else rest.lookup n

def Fields.hasField (fs : Fields) (n : String) : Bool :=
  (fs.lookup n).isSome

def Fields.names : Fields → List String
  | .nil => []
  | .cons n _ rest => n :: rest.names

/-- `get_default()` of a field descriptor: `ListField` defaults to a fresh
empty list (conjure/fields.py:229), every other field defaults to `None`
(`BaseField` in conjure/base.py, not under src/; modelled from the spec). -/
def defaultVal : FTy → JVal
  | .lst _ => .arr .nil
  | _ => .null

/-- `getattr(record, name)`: the populated value, or the field's default. -/
def getattrD (d : JObj) (n : String) (ty : FTy) : JVal :=
  (d.lookup n).getD (defaultVal ty)

def asList : JVal → List JVal
  | .arr xs => xs.toList
  | _ => []

def JArr.all (p : JVal → Bool) : JArr → Bool
  | .nil => true
  | .cons x xs => p x && JArr.all p xs

def keysNodup (d : JObj) : Bool := decide d.keys.Nodup

def keysAll (fs : Fields) (d : JObj) : Bool := d.keys.all fs.hasField

def fieldsNodup (fs : Fields) : Bool := decide fs.names.Nodup

/-! ### to_json (marshalling)

`ListField.to_json` (conjure/fields.py:266) maps the element field's
`to_json` over the list; `EmbeddedDocumentField.to_json`
(conjure/fields.py:476) renders an embedded record and `None` for anything
else.  Scalar `to_json` is the wire value itself (scalar conversion is
excluded, see above).  The record-level `to_json` (conjure/base.py, not under
src/) is modelled from the spec: it emits every populated field, converted by
its descriptor. -/

mutual

def fieldToJson : FTy → JVal → JVal
  | .scalar, v => v
  | .lst e, .arr xs => .arr (JArr.map (fieldToJson e) xs)
  | .lst _, v => v
  | .doc fs, .obj d => .obj (docToJson fs d)
  | .doc _, _ => .null
termination_by structural ty => ty

def docToJson : Fields → JObj → JObj
  | .nil, _ => .nil
  | .cons n ty rest, d =>
    match d.lookup n with
    | some v => .cons n (fieldToJson ty v) (docToJson rest d)
    | none => docToJson rest d
termination_by structural fs => fs

end

/-! ### deltas (structural diff) -/

/-- `_convert_json` (conjure/fields.py:289): `x.to_json()` when the element
has one (embedded documents), the raw element otherwise. -/
def convJson (e : FTy) (x : JVal) : JVal :=
  match e with
  | .doc fs => fieldToJson (.doc fs) x
  | _ => x

/-- `if field_deltas: deltas[k] = field_deltas` — record only non-empty
sub-deltas. -/
def consIf (k : String) (d : JObj) (rest : JObj) : JObj :=
  if d = .nil then rest else .cons k (.obj d) rest

/-- `xs[i] if i < len(xs) else None`, for all positions up to `n`. -/
def padNulls (xs : List JVal) (n : Nat) : List JVal :=
  xs ++ List.replicate (n - xs.length) .null

/-- The index-wise recursion of `ListField.deltas` (conjure/fields.py:311):
both sides padded to the same length, each non-empty element delta recorded
under the decimal form of its index. -/
def pairIdx (f : JVal → JVal → JObj) : List JVal → List JVal → Nat → JObj
  | c :: cr, b :: br, idx => consIf (toString idx) (f c b) (pairIdx f cr br (idx + 1))
  | _, _, _ => .nil

mutual

/-- `deltas(cur, base)` for one field.  The scalar case is modelled from the
spec (scalar `BaseField.deltas` lives in conjure/base.py, not under src/):
empty when equal, `{old: base, new: cur}` otherwise, matching the visible
`ReferenceField.deltas` (conjure/fields.py:616) and spec §4.4.  The `lst`
case mirrors `ListField.deltas` (conjure/fields.py:288-315), the `doc` case
`EmbeddedDocumentField.deltas` (conjure/fields.py:507-524). -/
def fieldDeltas : FTy → JVal → JVal → JObj
  | .scalar, cur, base =>
    if cur = base then .nil else .cons "old" base (.cons "new" cur .nil)
  | .lst e, cur, base =>
    let cs := if truthy cur then asList cur else []
    let bs := if truthy base then asList base else []
    let cl := cs.map (convJson e)
    let bl := bs.map (convJson e)
    let added := (cs.filter (fun x => decide (convJson e x ∉ bl))).map (convJson e)
    let removed := (bs.filter (fun x => decide (convJson e x ∉ cl))).map (convJson e)
    let d0 : JObj :=
      if added = [] ∧ removed = [] then .nil
      else .cons "added" (.arr (JArr.ofList added))
        (.cons "removed" (.arr (JArr.ofList removed)) .nil)
    let n := max cs.length bs.length
    d0.append (pairIdx (fieldDeltas e) (padNulls cs n) (padNulls bs n) 0)
  | .doc fs, cur, base =>
    if truthy cur then
      match cur with
      | .obj co => docDeltas fs co base
      | _ => .nil
    else .nil
termination_by structural ty => ty

/-- The per-field loop of `EmbeddedDocumentField.deltas`: the base side is
read only when the base record is truthy (`getattr(base, f) if base else
None`). -/
def docDeltas : Fields → JObj → JVal → JObj
  | .nil, _, _ => .nil
  | .cons f ty rest, co, base =>
    let bv :=
      match base with
      | .obj bo => if truthy base then getattrD bo f ty else .null
      | _ => .null
    consIf f (fieldDeltas ty (getattrD co f ty) bv) (docDeltas rest co base)
termination_by structural fs => fs

end

/-! ### from_json (absorbing an external document) -/

/-- The second loop of `EmbeddedDocumentField.from_json`
(conjure/fields.py:501-503): every incoming key with no schema field is
reported as `'unknown'` — a soft condition, never an error. -/
def unknownPass (fs : Fields) : JObj → JObj
  | .nil => .nil
  | .cons k _ rest =>
    if fs.hasField k then unknownPass fs rest
    else .cons k (.s "unknown") (unknownPass fs rest)

def zipFrom (g : JVal → JVal → JVal × JVal) : List JVal → List JVal → List (JVal × JVal)
  | jx :: js, c :: cs => g jx c :: zipFrom g js cs
  | _, _ => []

/-- `deltas[i] = delta` for every element index (conjure/fields.py:284;
Python uses `int` keys here, rendered as decimal strings). -/
def enumObj : Nat → List JVal → JObj
  | _, [] => .nil
  | idx, d :: ds => .cons (toString idx) d (enumObj (idx + 1) ds)

mutual

/-- `from_json` for one field value: `(ty, incoming, current, updateMode) ↦
(new value, delta)`.  The scalar case is modelled from the spec (scalar
`BaseField.from_json` lives in conjure/base.py, not under src/), matching the
visible `DateTimeField.from_json` (conjure/fields.py:135-148): the incoming
value is taken, with an `{old, new}` delta when it differs.  The `lst` case
mirrors `ListField.from_json` (conjure/fields.py:269-286): the current list
is trimmed then padded with `None` to the incoming length and elements are
absorbed pointwise; every element's delta (including empty ones) is recorded
by index.  The `doc` case mirrors `EmbeddedDocumentField.from_json`
(conjure/fields.py:480-505); a falsy current value is replaced by a fresh
empty document. -/
def fieldFromJson : FTy → JVal → JVal → Bool → JVal × JVal
  | .scalar, jv, cur, _ =>
    (jv, if jv = cur then .obj .nil else .obj (.cons "old" cur (.cons "new" jv .nil)))
  | .lst e, jv, cur, u =>
    let js := asList jv
    let cs := padNulls ((asList cur).take js.length) js.length
    let prs := zipFrom (fun a c => fieldFromJson e a c u) js cs
    (.arr (JArr.ofList (prs.map Prod.fst)), .obj (enumObj 0 (prs.map Prod.snd)))
  | .doc fs, jv, cur, u =>
    match jv with
    | .obj jo =>
      let co :=
        match cur with
        | .obj c => if truthy cur then c else JObj.nil
        | _ => JObj.nil
      let p := docFieldsPass fs jo co u
      (.obj p.1, .obj (p.2.append (unknownPass fs jo)))
    | _ => (cur, .obj .nil)
termination_by structural ty => ty

/-- The per-schema-field loop of `EmbeddedDocumentField.from_json`
(conjure/fields.py:486-499).  The record condition mirrors
`field_name not in cur_val._data or new_val != cur_val._data[field_name]`:
list and embedded `from_json` mutate and return the stored object itself, so
for them the `!=` comparison is between an object and itself and is always
false; only scalars compare by value.  The data slot itself carries the new
value in either case (by in-place mutation for containers, and the value is
unchanged in the skipped scalar case), so the embedding always stores. -/
def docFieldsPass : Fields → JObj → JObj → Bool → JObj × JObj
  | .nil, _, cur, _ => (cur, .nil)
  | .cons f ty rest, jo, cur, u =>
    match jo.lookup f with
    | some jv =>
      let p := fieldFromJson ty jv (getattrD cur f ty) u
      let record : Bool :=
        match cur.lookup f with
        | none => true
        | some old => decide (ty = .scalar ∧ p.1 ≠ old)
      let q := docFieldsPass rest jo (cur.set f p.1) u
      (q.1, if record then .cons f p.2 q.2 else q.2)
    | none =>
      if u then docFieldsPass rest jo cur u
      else if cur.hasKey f then
        let q := docFieldsPass rest jo (cur.erase f) u
        (q.1, .cons f (.s "deleted") q.2)
      else docFieldsPass rest jo cur u
termination_by structural fs => fs

end

/-- `from_json` at the record root (`absorb` in spec §4.4/§6): the missing
`BaseDocument.from_json` (conjure/base.py is not under src/) is modelled from
the spec as the same algorithm as the visible
`EmbeddedDocumentField.from_json`. -/
def docFromJson (fs : Fields) (jo : JObj) (cur : JObj) (u : Bool) : JObj × JObj :=
  let p := docFieldsPass fs jo cur u
  (p.1, p.2.append (unknownPass fs jo))

/-! ### set_field (path-addressed mutation) -/

inductive SErr where
  | unknownField : SErr
  | indexOutOfRange : SErr
  | otherErr : SErr
deriving DecidableEq

def digitVal? (c : Char) : Option Nat :=
  if c = '0' then some 0 else if c = '1' then some 1 else if c = '2' then some 2
  else if c = '3' then some 3 else if c = '4' then some 4 else if c = '5' then some 5
  else if c = '6' then some 6 else if c = '7' then some 7 else if c = '8' then some 8
  else if c = '9' then some 9 else none

def natOfCharsAux (acc : Nat) : List Char → Option Nat
  | [] => some acc
  | c :: cs =>
    match digitVal? c with
    | some d => natOfCharsAux (acc * 10 + d) cs
    | none => none

/-- Python `int(segment)` for a path segment; `none` models the `ValueError`.
Spec §4.1 makes index segments non-negative integers, so only decimal digit
strings are accepted. -/
def natOfString (s : String) : Option Nat :=
  match s.data with
  | [] => none
  | cs => natOfCharsAux 0 cs

def splitDotAux (cur : List Char) : List Char → List String
  | [] => [String.mk cur.reverse]
  | c :: cs =>
    if c = '.' then String.mk cur.reverse :: splitDotAux [] cs
    else splitDotAux (c :: cur) cs

/-- `path.split('.')`. -/
def splitDot (s : String) : List String := splitDotAux [] s.data

instance {ε α : Type} [DecidableEq ε] [DecidableEq α] : DecidableEq (Except ε α) := fun a b =>
  match a, b with
  | .error e, .error e' => decidable_of_iff (e = e') (by simp)
  | .ok x, .ok y => decidable_of_iff (x = y) (by simp)
  | .error _, .ok _ => isFalse (by simp)
  | .ok _, .error _ => isFalse (by simp)

/-- `set_field`, by parsed path segments (`path.split('.')`, processed one
segment at a time exactly as the chained `split('.', 1)` does).  The
record-root `set_field` (conjure/base.py, not under src/) is modelled from
spec §4.4 (`applyPath`) as the dispatcher visible in `ListField.set_field`
(conjure/fields.py:318-338) and `EmbeddedDocumentField.set_field`
(conjure/fields.py:526-541):
  * a segment naming no field descriptor raises `KeyError`
    (`cur_val._fields[field]`) — `unknownField`;
  * a list-valued field routes through an index segment; a terminal index
    replaces in place and never appends (`cur_val_list[index] = v` raises
    `IndexError` when `index >= len`) — `indexOutOfRange`; a non-terminal
    index likewise indexes the list before recursing;
  * an embedded field whose current value is `None` is created on demand
    before recursing;
  * a terminal name segment assigns the `from_val`-coerced value (scalar
    coercion is excluded by spec §1 and modelled as the identity).
`otherErr` stands for the remaining Python failures (`ValueError` from
`int()`, `IndexError` from `k.split('.', 1)[1]` on a bare list path,
`AttributeError`/`TypeError` on type-confused data).  The DictField terminal
branch (conjure/fields.py:535) is not modelled. -/
def setFieldDoc : Fields → JObj → List String → JVal → Except SErr JObj
  | _, _, [], _ => .error .otherErr
  | fs, data, [f], v =>
    match Fields.lookup f fs with
    | none => .error .unknownField
    | some ty =>
      match ty, getattrD data f ty with
      | .lst _, .arr _ => .error .otherErr
      | _, _ => .ok (data.set f v)
  | fs, data, f :: seg :: rest2, v =>
    match Fields.lookup f fs with
    | none => .error .unknownField
    | some ty =>
      match ty, getattrD data f ty with
      | .lst e, .arr xs =>
        match natOfString seg with
        | none => .error .otherErr
        | some idx =>
          let l := xs.toList
          match rest2 with
          | [] =>
            if idx < l.length then .ok (data.set f (.arr (JArr.ofList (l.set idx v))))
            else .error .indexOutOfRange
          | _ =>
            match l.get? idx with
            | none => .error .indexOutOfRange
            | some el =>
              match e, el with
              | .doc gs, .obj ed =>
                (setFieldDoc gs ed rest2 v).map
                  (fun ed' => data.set f (.arr (JArr.ofList (l.set idx (.obj ed')))))
              | _, _ => .error .otherErr
      | .doc gs, curv =>
        (match if curv = .null then .obj .nil else curv with
         | .obj ed =>
           (setFieldDoc gs ed (seg :: rest2) v).map (fun ed' => data.set f (.obj ed'))
         | _ => Except.error .otherErr)
      | _, _ => .error .otherErr

/-- `applyPath` of spec §4.4/§6: parse the dotted path, then `set_field`. -/
def applyPath (fs : Fields) (data : JObj) (path : String) (v : JVal) : Except SErr JObj :=
  setFieldDoc fs data (splitDot path) v

/-! ### well-typed record data -/

mutual

/-- Well-typed data for a field: scalars are non-null, non-container wire
values (a field assigned `None` is removed from `_data` by the descriptor,
src/tests/test_documents.py:435-436); lists hold well-typed elements;
embedded documents hold well-typed sub-records keyed by their own schema
fields, without duplicate keys. -/
def wtField : FTy → JVal → Bool
  | .scalar, .b _ => true
  | .scalar, .i _ => true
  | .scalar, .s _ => true
  | .scalar, _ => false
  | .lst e, .arr xs => JArr.all (wtField e) xs
  | .lst _, _ => false
  | .doc fs, .obj d => wtFields fs d && keysAll fs d && keysNodup d
  | .doc _, _ => false
termination_by structural ty => ty

def wtFields : Fields → JObj → Bool
  | .nil, _ => true
  | .cons f ty rest, d =>
    (match d.lookup f with
     | some v => wtField ty v
     | none => true) && wtFields rest d
termination_by structural fs => fs

end

/-- Well-typed record data for a whole record. -/
def wtRecord (fs : Fields) (d : JObj) : Bool :=
  wtFields fs d && keysAll fs d && keysNodup d

mutual

/-- A well-formed schema: no duplicate field names at any document level
(guaranteed in Python by class dicts having unique keys). -/
def wfTy : FTy → Bool
  | .scalar => true
  | .lst e => wfTy e
  | .doc fs => fieldsNodup fs && wfFieldsTys fs
termination_by structural ty => ty

def wfFieldsTys : Fields → Bool
  | .nil => true
  | .cons _ ty rest => wfTy ty && wfFieldsTys rest
termination_by structural fs => fs

end

/-! ## conjure/documents.py — change tracking

`Document.__init__` (conjure/documents.py:18-21) stores
`self._base = copy.deepcopy(self)` when `Meta.track_changes` is set.  Python
list values are mutable objects shared by reference, so to state that the
snapshot shares no mutable container with the live record, list field values
are modelled as references into an explicit heap of list cells; scalars are
immutable and stored inline.  `Document.deltas` itself lives in
conjure/base.py (not under src/) and is modelled from the spec as the
per-field diff of the live data against the base snapshot, through the
visible field `deltas` methods. -/

inductive HVal where
  | sc : JVal → HVal
  | ref : Nat → HVal
deriving DecidableEq

/-- The store of list objects: cell `a` holds the list's elements. -/
abbrev Heap := List (List JVal)

/-- A record's `_data`: field name to scalar value or list object. -/
abbrev HDoc := List (String × HVal)

def hlookup (k : String) : HDoc → Option HVal
  | [] => none
  | (k', v) :: rest => if k' = k then some v else hlookup k rest

/-- Dereference a field value through the heap. -/
def readH (h : Heap) : HVal → JVal
  | .sc v => v
  | .ref a => .arr (JArr.ofList (h.getD a []))

def readDocH (h : Heap) : HDoc → List (String × JVal)
  | [] => []
  | (f, hv) :: rest => (f, readH h hv) :: readDocH h rest

/-- Field initialisers handed to `Document.__init__(**data)`. -/
inductive HInit where
  | sc : JVal → HInit
  | li : List JVal → HInit
deriving DecidableEq

/-- Populate `_data`: each list initialiser allocates a fresh list object. -/
def initDoc (h : Heap) : List (String × HInit) → Heap × HDoc
  | [] => (h, [])
  | (f, .sc v) :: rest =>
    let p := initDoc h rest
    (p.1, (f, .sc v) :: p.2)
  | (f, .li xs) :: rest =>
    let p := initDoc (h ++ [xs]) rest
    (p.1, (f, .ref h.length) :: p.2)

/-- `copy.deepcopy` of `_data`: every list object is copied into a fresh
cell. -/
def deepcopyDoc (h : Heap) : HDoc → Heap × HDoc
  | [] => (h, [])
  | (f, .sc v) :: rest =>
    let p := deepcopyDoc h rest
    (p.1, (f, .sc v) :: p.2)
  | (f, .ref a) :: rest =>
    let p := deepcopyDoc (h ++ [h.getD a []]) rest
    (p.1, (f, .ref h.length) :: p.2)

structure TrackedDoc where
  data : HDoc
  base : HDoc
deriving DecidableEq

/-- `Document.__init__` under `Meta.track_changes`: populate `_data`, then
`self._base = copy.deepcopy(self)`. -/
def newDoc (h : Heap) (init : List (String × HInit)) : Heap × TrackedDoc :=
  let p := initDoc h init
  let q := deepcopyDoc p.1 p.2
  (q.1, ⟨p.2, q.2⟩)

/-- `record.f.append(x)`: in-place mutation of the list object held by field
`f` of the live record (e.g. `order.errors.append(...)`,
src/tests/test_documents.py:211). -/
def appendToList (h : Heap) (d : HDoc) (f : String) (x : JVal) : Heap :=
  match hlookup f d with
  | some (.ref a) => h.set a ((h.getD a []) ++ [x])
  | _ => h

/-- The field type a heap value diffs as: scalars as scalars, list objects as
lists of scalars. -/
def hFieldTy : HVal → FTy
  | .sc _ => .scalar
  | .ref _ => .lst .scalar

/-- `record.deltas()` against the base snapshot: per-field diff through the
field `deltas` methods, keeping non-empty entries (modelled from the spec,
see the section header). -/
def hDeltas (h : Heap) (b : HDoc) : HDoc → JObj
  | [] => .nil
  | (f, hv) :: rest =>
    let bv :=
      match hlookup f b with
      | some w => readH h w
      | none => .null
    consIf f (fieldDeltas (hFieldTy hv) (readH h hv) bv) (hDeltas h b rest)

/-- The cell addresses a record's data holds (its mutable containers). -/
def refAddrs : HDoc → List Nat
  | [] => []
  | (_, .ref a) :: rest => a :: refAddrs rest
  | (_, .sc _) :: rest => refAddrs rest

/-- Concrete initialiser mirroring the order of
src/tests/test_documents.py:196-211: a scalar status and a list field. -/
def exampleInit : List (String × HInit) :=
  [("status", .sc (.s "submitted")), ("item_ids", .li [.s "item1", .s "item2"])]

/-! ## A concrete example record (used by the concrete claim instances)

Mirrors the `User` record of src/tests/test_documents.py:36-98: a scalar
field, and a list of embedded documents each holding a scalar and a list of
scalars. -/

def historyItemFields : Fields :=
  .cons "note" .scalar (.cons "tags" (.lst .scalar) .nil)

def exampleUserFields : Fields :=
  .cons "name" .scalar (.cons "history" (.lst (.doc historyItemFields)) .nil)

def exampleUser : JObj :=
  .cons "name" (.s "Andrew")
    (.cons "history"
      (.arr (.cons (.obj (.cons "note" (.s "some note")
        (.cons "tags" (.arr (.cons (.s "a") (.cons (.s "b") (.cons (.s "c") .nil)))) .nil)))
        .nil))
      .nil)

/-! # Theorems -/

/-! ## Helper lemmas -/

theorem QOp.str_inj {o1 o2 : QOp} (h : o1 ≠ o2) : o1.str ≠ o2.str := by
  cases o1 <;> cases o2 <;> first
    | exact absurd rfl h
    | (intro hs; exact absurd hs (by decide))

theorem QOp.dollar_inj {o1 o2 : QOp} (h : o1 ≠ o2) : "$" ++ o1.str ≠ "$" ++ o2.str := by
  cases o1 <;> cases o2 <;> first
    | exact absurd rfl h
    | (intro hs; exact absurd hs (by decide))

/-! ## C1 — double inversion -/

/-- C1: for every supported operator, inverting a leaf twice should return an
expression whose compiled document equals the original's.  On the code this
holds for `eq`, `lte`, `gte`, `in`, `nin`, `exists` and for the
no-complement operators (`mod`, `all`, `size`, `type`, `where`, `slice`,
via the generic leading-`not` wrap), but the second inversion of an `ne`,
`lt` or `gt` leaf raises `ValueError` (modelled as `none`):
`NotEqual.__invert__` returns a `LessThan`, whose inversion then looks for a
`lt` operator that is not in the chain, and `LessThan.__invert__` /
`GreaterThan.__invert__` produce a `GreaterThanEqual` carrying `gt` / `lt`,
whose inversion then looks for a missing `gte`. -/
theorem c1_double_inversion_crashes_on_ne_lt_gt :
    (∀ f v, invertTwice (neLeaf f v) = none) ∧
    (∀ f v, invertTwice (ltLeaf f v) = none) ∧
    (∀ f v, invertTwice (gtLeaf f v) = none) ∧
    (∀ f v, (invertTwice (eqLeaf f v)).map QuerySpecification.compile
      = some ((eqLeaf f v).compile)) ∧
    (∀ f v, (invertTwice (lteLeaf f v)).map QuerySpecification.compile
      = some ((lteLeaf f v).compile)) ∧
    (∀ f v, (invertTwice (gteLeaf f v)).map QuerySpecification.compile
      = some ((gteLeaf f v).compile)) ∧
    (∀ f v, (invertTwice (inLeaf f v)).map QuerySpecification.compile
      = some ((inLeaf f v).compile)) ∧
    (∀ f v, (invertTwice (ninLeaf f v)).map QuerySpecification.compile
      = some ((ninLeaf f v).compile)) ∧
    (∀ f b, (invertTwice (existsLeaf f b)).map QuerySpecification.compile
      = some ((existsLeaf f b).compile)) ∧
    (∀ f v, (invertTwice (modLeaf f v)).map QuerySpecification.compile
      = some ((modLeaf f v).compile)) ∧
    (∀ f v, (invertTwice (allLeaf f v)).map QuerySpecification.compile
      = some ((allLeaf f v).compile)) ∧
    (∀ f v, (invertTwice (sizeLeaf f v)).map QuerySpecification.compile
      = some ((sizeLeaf f v).compile)) ∧
    (∀ f v, (invertTwice (typeLeaf f v)).map QuerySpecification.compile
      = some ((typeLeaf f v).compile)) ∧
    (∀ f v, (invertTwice (whereLeaf f v)).map QuerySpecification.compile
      = some ((whereLeaf f v).compile)) ∧
    (∀ f v, (invertTwice (sliceLeaf f v)).map QuerySpecification.compile
      = some ((sliceLeaf f v).compile)) := by
  exact ⟨fun f v => rfl, fun f v => rfl, fun f v => rfl, fun f v => rfl, fun f v => rfl,
    fun f v => rfl, fun f v => rfl, fun f v => rfl, fun f b => by cases b <;> rfl,
    fun f v => rfl, fun f v => rfl, fun f v => rfl, fun f v => rfl, fun f v => rfl,
    fun f v => rfl⟩

/-! ## C3 — compilation of `|` -/

/-- C3: `compile(a | b)` is claimed to be `{"$or": [compile(a), compile(b)]}`
with `"$or"` as the only top-level key, `|` flattening repeated application.
The code instead files the or-list under the *empty-string* top-level key —
`__or__` builds the expression `['', 'or', [...]]`, whose key parses to
`('', ['or'])`, so `compile` produces `{'': {'$or': [...]}}` — contradicting
the repository's own test (src/tests/spec.py:132, which expects a top-level
`'$or'` key); and a repeated `|` nests the previous or-specification whole
as one element rather than extending the list. -/
theorem c3_or_compiles_under_empty_key :
    (∀ a b : QuerySpecification,
      (a.orQ b).compile
        = some (.cons "" (.obj (.cons "$or"
            (.specs (.cons a.cls a.exprs (.cons b.cls b.exprs .nil))) .nil)) .nil)) ∧
    ("" : String) ≠ "$or" ∧
    (∀ a b c : QuerySpecification,
      ((a.orQ b).orQ c).exprs
        = .cons "" ["or"]
            (.specs (.cons .base (a.orQ b).exprs (.cons c.cls c.exprs .nil))) .nil) ∧
    CObj.lookup "$or"
      (.cons "" (.obj (.cons "$or"
        (.specs (.cons .equal (.cons "followers" [] (.j (.i 5)) .nil)
          (.cons .equal (.cons "followers" [] (.j (.i 9)) .nil) .nil))) .nil)) .nil)
      = none := by
  refine ⟨fun a b => rfl, by decide, fun a b c => rfl, by decide⟩

/-! ## C2 — `&` merges same-field leaves -/

/-- C2: for two single-operator leaves on the same field with distinct
operators, `compile(a & b)` is one mapping with a single entry for the field
carrying both `$`-operator keys. -/
theorem c2_and_merges_same_field (o1 o2 : QOp) (f : String) (v1 v2 : JVal)
    (h : o1 ≠ o2) :
    ((leaf1 o1 f v1).andQ (leaf1 o2 f v2)).compile
      = some (.cons f (.obj (.cons ("$" ++ o1.str) (.j v1)
          (.cons ("$" ++ o2.str) (.j v2) .nil))) .nil) := by
  have hs : o1.str ≠ o2.str := QOp.str_inj h
  have hd : "$" ++ o1.str ≠ "$" ++ o2.str := QOp.dollar_inj h
  simp [leaf1, QuerySpecification.andQ, QExprs.andFold, QExprs.andStep, QExprs.hasKey,
    QExprs.set, QuerySpecification.compile, QExprs.compileFold, CObj.compileStep,
    CObj.getObjAt, CObj.setChain, CObj.set, CObj.lookup, qvalToC, hs, Ne.symm hs, hd,
    Ne.symm hd]

/-- C2 witness: `(age > 5) & (age < 10)` compiles exactly to
`{"age": {"$gt": 5, "$lt": 10}}` (src/tests/spec.py:46). -/
theorem c2_and_merges_same_field_witness :
    QOp.gt ≠ QOp.lt ∧
    ((leaf1 .gt "age" (.i 5)).andQ (leaf1 .lt "age" (.i 10))).compile
      = some (.cons "age" (.obj (.cons "$gt" (.j (.i 5))
          (.cons "$lt" (.j (.i 10)) .nil))) .nil) :=
  ⟨by decide, c2_and_merges_same_field .gt .lt "age" (.i 5) (.i 10) (by decide)⟩

/-! ## C5 — merging `inc` terms -/

/-- C5: merging two `inc` update terms on the same field with `&` yields a
single `inc` whose operand is the sum; in particular
`inc(age, 2) & inc(age, -5)` compiles to `{"$inc": {"age": -3}}` and
`inc(age, 2) & dec(age, 2)` compiles to `{"$inc": {"age": 0}}`
(src/tests/spec.py:139-140). -/
theorem c5_inc_merge_sums (f : String) (m n : Int) :
    (incTerm f m).andU (incTerm f n) = some (incTerm f (m + n)) ∧
    (incTerm f (m + n)).compile = .cons "$inc" (.obj (.cons f (.i (m + n)) .nil)) .nil ∧
    ((incTerm "age" 2).andU (incTerm "age" (-5))).map UpdateSpecification.compile
      = some (.cons "$inc" (.obj (.cons "age" (.i (-3)) .nil)) .nil) ∧
    ((incTerm "age" 2).andU (decTerm "age" 2)).map UpdateSpecification.compile
      = some (.cons "$inc" (.obj (.cons "age" (.i 0) .nil)) .nil) := by
  refine ⟨?_, ?_, by decide, by decide⟩
  · simp [incTerm, UpdateSpecification.andU, umergeFold, umergeStep, ulookup, uset, pyAdd]
  · simp [incTerm, UpdateSpecification.compile, ucompileFold, JObj.lookup, JObj.set]

/-! ## C6 — merging `unset` with another term -/

/-- C6 counterexample: the claim says merging an existing `unset(f)` with an
incoming term on the same field discards the unset (incoming wins), the
compiled document containing no `$unset` entry for `f`.  Merging
`unset(age)` with `set(age, 5)` in the code keeps *both* — the keys
`unset:age` and `set:age` differ, so the incoming term is simply assigned
next to the existing unset — and the compiled document still carries
`{"$unset": {"age": 1}}`. -/
theorem c6_unset_merge_counterexample :
    ((unsetTerm "age").andU (setTerm "age" (.i 5))).map UpdateSpecification.compile
      = some (.cons "$unset" (.obj (.cons "age" (.i 1) .nil))
          (.cons "$set" (.obj (.cons "age" (.i 5) .nil)) .nil)) ∧
    JObj.lookup "$unset"
      (.cons "$unset" (.obj (.cons "age" (.i 1) .nil))
        (.cons "$set" (.obj (.cons "age" (.i 5) .nil)) .nil))
      = some (.obj (.cons "age" (.i 1) .nil)) := by
  exact ⟨by decide, by decide⟩

/-- C6 amended: merging an existing `unset(f)` with an incoming update term
under a *different* `(operator, field)` key keeps both as sibling entries —
the unset is retained, not discarded; only an incoming term with the same
key (i.e. another `unset` of the same field) replaces it. -/
theorem c6_unset_merge_keeps_both (f op k' : String) (v : JVal)
    (h : (op, k') ≠ ("unset", f)) :
    (unsetTerm f).andU ⟨[((op, k'), v)]⟩
      = some ⟨[(("unset", f), .i 1), ((op, k'), v)]⟩ := by
  simp [unsetTerm, UpdateSpecification.andU, umergeFold, umergeStep, ulookup, uset,
    Ne.symm h, h]

/-- C6 amended witness: `unset(age) & set(age, 5)` keeps both entries. -/
theorem c6_unset_merge_keeps_both_witness :
    (("set", "age") : String × String) ≠ ("unset", "age") ∧
    (unsetTerm "age").andU ⟨[(("set", "age"), .i 5)]⟩
      = some ⟨[(("unset", "age"), .i 1), (("set", "age"), .i 5)]⟩ :=
  ⟨by decide, c6_unset_merge_keeps_both "age" "set" "age" (.i 5) (by decide)⟩

/-! ## C8 — list diff -/

theorem JArr.toList_ofList (xs : List JVal) : (JArr.ofList xs).toList = xs := by
  induction xs with
  | nil => rfl
  | cons x rest ih => simp [JArr.ofList, JArr.toList, ih]

theorem truthy_arr_ofList {xs : List JVal} (h : xs ≠ []) :
    truthy (.arr (JArr.ofList xs)) = true := by
  cases xs with
  | nil => exact absurd rfl h
  | cons x rest => rfl

theorem padNulls_length_self (xs : List JVal) : padNulls xs xs.length = xs := by
  simp [padNulls]

theorem pairIdx_self (g : JVal → JVal → JObj) (hg : ∀ x, g x x = .nil) :
    ∀ (l : List JVal) (i : Nat), pairIdx g l l i = .nil := by
  intro l
  induction l with
  | nil => intro i; rfl
  | cons x xs ih => intro i; simp [pairIdx, consIf, hg x, ih (i + 1)]

theorem pairIdx_append_last (g : JVal → JVal → JObj) (a bv : JVal)
    (hg : ∀ x, g x x = .nil) :
    ∀ (l : List JVal) (i : Nat),
      pairIdx g (l ++ [a]) (l ++ [bv]) i
        = consIf (toString (i + l.length)) (g a bv) .nil := by
  intro l
  induction l with
  | nil => intro i; simp [pairIdx]
  | cons x xs ih =>
    intro i
    have hstep : pairIdx g ((x :: xs) ++ [a]) ((x :: xs) ++ [bv]) i
        = consIf (toString i) (g x x) (pairIdx g (xs ++ [a]) (xs ++ [bv]) (i + 1)) := rfl
    have harith : i + 1 + xs.length = i + (x :: xs).length := by
      simp only [List.length_cons]
      omega
    rw [hstep, hg x, ih (i + 1), harith]
    simp [consIf]

mutual

/-- Diffing a value against itself is empty, for every field type. -/
theorem fieldDeltas_self : ∀ (ty : FTy) (v : JVal), fieldDeltas ty v v = .nil := by
  intro ty v
  cases ty with
  | scalar => simp [fieldDeltas]
  | lst e =>
    have hg : ∀ x, fieldDeltas e x x = .nil := fun x => fieldDeltas_self e x
    simp only [fieldDeltas]
    generalize (if truthy v then asList v else []) = cs
    have hfil :
        cs.filter (fun x => decide (convJson e x ∉ cs.map (convJson e))) = [] := by
      refine List.filter_eq_nil_iff.mpr (fun x hx => ?_)
      simp only [decide_eq_true_eq, Decidable.not_not]
      exact List.mem_map_of_mem _ hx
    rw [hfil]
    simp only [List.map_nil, Nat.max_self, padNulls_length_self,
      pairIdx_self _ hg cs 0]
    simp [JObj.append]
  | doc fs =>
    cases v with
    | obj co =>
      by_cases h : truthy (.obj co) = true
      · simp [fieldDeltas, h, docDeltas_self fs co h]
      · simp [fieldDeltas, h]
    | null => simp [fieldDeltas]
    | b v => simp [fieldDeltas]
    | i n => simp [fieldDeltas]
    | s v => simp [fieldDeltas]
    | arr xs => simp [fieldDeltas]
termination_by structural ty => ty

theorem docDeltas_self : ∀ (fs : Fields) (co : JObj), truthy (.obj co) = true →
    docDeltas fs co (.obj co) = .nil := by
  intro fs
  cases fs with
  | nil => intro co h; rfl
  | cons f ty rest =>
    intro co h
    simp only [docDeltas, h, if_pos]
    simp [consIf, fieldDeltas_self ty (getattrD co f ty), docDeltas_self rest co h]
termination_by structural fs => fs

end

/-- C8 counterexample: diffing `["a"]` against base `["a", "b"]` — one
removal, sides otherwise equal — reports the removal, but *also* records an
index-wise `{old, new}` entry under `"1"`, a position that exists only on
the base side: the recursion runs over all positions up to the longer list,
not only over shared positions, contradicting the claimed shape. -/
theorem c8_list_diff_counterexample :
    fieldDeltas (.lst .scalar) (.arr (.cons (.s "a") .nil))
        (.arr (.cons (.s "a") (.cons (.s "b") .nil)))
      = .cons "added" (.arr .nil)
          (.cons "removed" (.arr (.cons (.s "b") .nil))
            (.cons "1" (.obj (.cons "old" (.s "b") (.cons "new" .null .nil))) .nil)) ∧
    JObj.lookup "1"
      (.cons "added" (.arr .nil)
        (.cons "removed" (.arr (.cons (.s "b") .nil))
          (.cons "1" (.obj (.cons "old" (.s "b") (.cons "new" .null .nil))) .nil)))
      = some (.obj (.cons "old" (.s "b") (.cons "new" .null .nil))) :=
  ⟨by decide, by decide⟩

/-- C8 amended: `added`/`removed` are exactly the elements whose
JSON-serialisable projection is missing from the other side (no spurious
added/removed entries), a value diffed against itself reports nothing, and
the index-wise recursion runs over *all* positions up to the longer list
(missing sides read as `None`), so after one addition and one removal at the
end of otherwise-equal lists the diff carries exactly that addition and
removal in `added`/`removed` plus one index-aligned element delta. -/
theorem c8_list_diff_added_removed (e : FTy) (l : List JVal) (a bv : JVal)
    (ha : convJson e a ∉ (l ++ [bv]).map (convJson e))
    (hb : convJson e bv ∉ (l ++ [a]).map (convJson e)) :
    (∀ ty v, fieldDeltas ty v v = .nil) ∧
    fieldDeltas (.lst e) (.arr (JArr.ofList (l ++ [a]))) (.arr (JArr.ofList (l ++ [bv])))
      = .cons "added" (.arr (.cons (convJson e a) .nil))
          (.cons "removed" (.arr (.cons (convJson e bv) .nil))
            (consIf (toString l.length) (fieldDeltas e a bv) .nil)) := by
  refine ⟨fieldDeltas_self, ?_⟩
  have hta : truthy (.arr (JArr.ofList (l ++ [a]))) = true :=
    truthy_arr_ofList (by simp)
  have htb : truthy (.arr (JArr.ofList (l ++ [bv]))) = true :=
    truthy_arr_ofList (by simp)
  have hfa : (l ++ [a]).filter
      (fun x => decide (convJson e x ∉ (l ++ [bv]).map (convJson e))) = [a] := by
    rw [List.filter_append]
    have h1 : l.filter
        (fun x => decide (convJson e x ∉ (l ++ [bv]).map (convJson e))) = [] := by
      refine List.filter_eq_nil_iff.mpr (fun x hx => ?_)
      simp only [decide_eq_true_eq, Decidable.not_not]
      exact List.mem_map_of_mem _ (List.mem_append_left _ hx)
    rw [h1, List.nil_append]
    simp only [List.filter_cons, List.filter_nil, decide_eq_true_eq]
    rw [if_pos ha]
  have hfb : (l ++ [bv]).filter
      (fun x => decide (convJson e x ∉ (l ++ [a]).map (convJson e))) = [bv] := by
    rw [List.filter_append]
    have h1 : l.filter
        (fun x => decide (convJson e x ∉ (l ++ [a]).map (convJson e))) = [] := by
      refine List.filter_eq_nil_iff.mpr (fun x hx => ?_)
      simp only [decide_eq_true_eq, Decidable.not_not]
      exact List.mem_map_of_mem _ (List.mem_append_left _ hx)
    rw [h1, List.nil_append]
    simp only [List.filter_cons, List.filter_nil, decide_eq_true_eq]
    rw [if_pos hb]
  simp only [fieldDeltas]
  rw [hta, htb]
  simp only [if_true, asList, JArr.toList_ofList]
  rw [hfa, hfb]
  have hlen : (l ++ [a]).length = (l ++ [bv]).length := by simp
  have hmax : max (l ++ [a]).length (l ++ [bv]).length = (l ++ [a]).length := by
    rw [hlen, Nat.max_self]
  rw [hmax, padNulls_length_self, hlen, padNulls_length_self,
    pairIdx_append_last (fieldDeltas e) a bv (fieldDeltas_self e) l 0]
  simp [JObj.append, JArr.ofList]

/-! ### Association-list lemmas -/

theorem JObj.objInduction {motive : JObj → Prop} (nil : motive .nil)
    (cons : ∀ k v rest, motive rest → motive (.cons k v rest)) : ∀ d, motive d := by
  intro d
  cases d with
  | nil => exact nil
  | cons k v rest => exact cons k v rest (JObj.objInduction nil cons rest)
termination_by structural d => d

theorem Fields.fieldsInduction {motive : Fields → Prop} (nil : motive .nil)
    (cons : ∀ n ty rest, motive rest → motive (.cons n ty rest)) : ∀ fs, motive fs := by
  intro fs
  cases fs with
  | nil => exact nil
  | cons n ty rest => exact cons n ty rest (Fields.fieldsInduction nil cons rest)
termination_by structural fs => fs

theorem JObj.lookup_set_ne {f g : String} (v : JVal) (h : f ≠ g) {d : JObj} :
    (d.set f v).lookup g = d.lookup g := by
  induction d using JObj.objInduction with
  | nil => simp [JObj.set, JObj.lookup, h]
  | cons k w rest ih =>
    by_cases hk : k = f
    · subst hk
      simp [JObj.set, JObj.lookup, h, ih]
    · simp [JObj.set, JObj.lookup, hk, ih]

theorem JObj.lookup_erase_ne {f g : String} (h : f ≠ g) {d : JObj} :
    (d.erase f).lookup g = d.lookup g := by
  induction d using JObj.objInduction with
  | nil => simp [JObj.erase, JObj.lookup]
  | cons k w rest ih =>
    by_cases hk : k = f
    · subst hk
      simp [JObj.erase, JObj.lookup, h, ih]
    · simp [JObj.erase, JObj.lookup, hk, ih]

theorem JObj.hasKey_eq_false_iff {d : JObj} {g : String} :
    d.hasKey g = false ↔ d.lookup g = none := by
  induction d using JObj.objInduction with
  | nil => simp [JObj.hasKey, JObj.lookup]
  | cons k w rest ih =>
    by_cases hk : k = g
    · simp [JObj.hasKey, JObj.lookup, hk]
    · simp [JObj.hasKey, JObj.lookup, hk, ih]

theorem JObj.hasKey_set_ne {f g : String} (v : JVal) (h : f ≠ g) {d : JObj} :
    (d.set f v).hasKey g = d.hasKey g := by
  induction d using JObj.objInduction with
  | nil => simp [JObj.set, JObj.hasKey, h]
  | cons k w rest ih =>
    by_cases hk : k = f
    · subst hk
      simp [JObj.set, JObj.hasKey, ih]
    · simp [JObj.set, JObj.hasKey, hk, ih]

theorem JObj.hasKey_erase_ne {f g : String} (h : f ≠ g) {d : JObj} :
    (d.erase f).hasKey g = d.hasKey g := by
  induction d using JObj.objInduction with
  | nil => simp [JObj.erase, JObj.hasKey]
  | cons k w rest ih =>
    by_cases hk : k = f
    · subst hk
      simp [JObj.erase, JObj.hasKey, h, ih]
    · simp [JObj.erase, JObj.hasKey, hk, ih]

theorem JObj.hasKey_eq_mem_keys {g : String} {d : JObj} :
    d.hasKey g = true ↔ g ∈ d.keys := by
  induction d using JObj.objInduction with
  | nil => simp [JObj.hasKey, JObj.keys]
  | cons k w rest ih =>
    by_cases hk : k = g
    · simp [JObj.hasKey, JObj.keys, hk]
    · simp [JObj.hasKey, JObj.keys, hk, ih, Ne.symm hk]

theorem JObj.keys_set (f : String) (v : JVal) (d : JObj) :
    (d.set f v).keys = d.keys ∨ (d.set f v).keys = d.keys ++ [f] := by
  induction d using JObj.objInduction with
  | nil => right; rfl
  | cons k w rest ih =>
    by_cases hk : k = f
    · left; simp [JObj.set, hk, JObj.keys]
    · rcases ih with h | h
      · left; simp [JObj.set, hk, JObj.keys, h]
      · right; simp [JObj.set, hk, JObj.keys, h]

theorem JObj.keysNodup_set {f : String} (v : JVal) {d : JObj}
    (h : keysNodup d = true) : keysNodup (d.set f v) = true := by
  induction d using JObj.objInduction with
  | nil => simp [JObj.set, keysNodup, JObj.keys]
  | cons k w rest ih =>
    simp only [keysNodup, JObj.keys, decide_eq_true_eq, List.nodup_cons] at h
    by_cases hk : k = f
    · simp only [JObj.set, if_pos hk, keysNodup, JObj.keys, decide_eq_true_eq,
        List.nodup_cons]
      exact h
    · have ih' := ih (by simp [keysNodup, decide_eq_true_eq, h.2])
      simp only [JObj.set, if_neg hk, keysNodup, JObj.keys, decide_eq_true_eq,
        List.nodup_cons]
      refine ⟨?_, by simpa [keysNodup] using ih'⟩
      intro hkmem
      rcases JObj.keys_set f v rest with hs | hs
      · rw [hs] at hkmem
        exact h.1 hkmem
      · rw [hs] at hkmem
        rcases List.mem_append.mp hkmem with hmem | hmem
        · exact h.1 hmem
        · simp at hmem
          exact hk hmem

theorem JObj.keys_erase_sublist (f : String) (d : JObj) :
    (d.erase f).keys.Sublist d.keys := by
  induction d using JObj.objInduction with
  | nil => simp [JObj.erase]
  | cons k w rest ih =>
    by_cases hk : k = f
    · simp only [JObj.erase, if_pos hk, JObj.keys]
      exact List.sublist_cons_self _ _
    · simp only [JObj.erase, if_neg hk, JObj.keys]
      exact ih.cons₂ k

theorem JObj.keysNodup_erase {d : JObj} (f : String) (h : keysNodup d = true) :
    keysNodup (d.erase f) = true := by
  simp only [keysNodup, decide_eq_true_eq] at h ⊢
  exact h.sublist (JObj.keys_erase_sublist f d)

theorem JObj.lookup_erase_self {f : String} {d : JObj} (h : keysNodup d = true) :
    (d.erase f).lookup f = none := by
  induction d using JObj.objInduction with
  | nil => simp [JObj.erase, JObj.lookup]
  | cons k w rest ih =>
    simp only [keysNodup, JObj.keys, decide_eq_true_eq, List.nodup_cons] at h
    by_cases hk : k = f
    · subst hk
      have herase : (JObj.cons k w rest).erase k = rest := by simp [JObj.erase]
      rw [herase, ← JObj.hasKey_eq_false_iff]
      cases hrest : rest.hasKey k with
      | false => rfl
      | true => exact absurd (JObj.hasKey_eq_mem_keys.mp hrest) h.1
    · simp only [JObj.erase, if_neg hk, JObj.lookup, if_neg hk]
      exact ih (by simp [keysNodup, decide_eq_true_eq, h.2])

theorem JObj.lookup_append_left {a : JObj} (b : JObj) {k : String} {v : JVal}
    (h : a.lookup k = some v) : (a.append b).lookup k = some v := by
  induction a using JObj.objInduction with
  | nil => simp [JObj.lookup] at h
  | cons k2 w rest ih =>
    by_cases hk : k2 = k
    · simp only [JObj.lookup, if_pos hk] at h
      simp [JObj.append, JObj.lookup, hk, h]
    · simp only [JObj.lookup, if_neg hk] at h
      simp [JObj.append, JObj.lookup, hk, ih h]

theorem JObj.lookup_append_right {a : JObj} (b : JObj) {k : String}
    (h : a.lookup k = none) : (a.append b).lookup k = b.lookup k := by
  induction a using JObj.objInduction with
  | nil => simp [JObj.append]
  | cons k2 w rest ih =>
    by_cases hk : k2 = k
    · simp [JObj.lookup, if_pos hk] at h
    · simp only [JObj.lookup, if_neg hk] at h
      simp [JObj.append, JObj.lookup, hk, ih h]

/-! ### C4 — absorb markers -/

theorem Fields.hasField_cons {f g : String} {ty : FTy} {rest : Fields} :
    (Fields.cons f ty rest).hasField g
      = if f = g then true else rest.hasField g := by
  by_cases hf : f = g <;> simp [Fields.hasField, Fields.lookup, hf]

theorem Fields.not_mem_names_hasField {g : String} {fs : Fields}
    (h : g ∉ fs.names) : fs.hasField g = false := by
  induction fs using Fields.fieldsInduction with
  | nil => rfl
  | cons f ty rest ih =>
    simp only [Fields.names, List.mem_cons, not_or] at h
    rw [Fields.hasField_cons, if_neg (fun hf => h.1 hf.symm)]
    exact ih h.2

theorem Fields.hasField_cons_ne {f g : String} {ty : FTy} {rest : Fields}
    (h : ¬ (f = g)) :
    (Fields.cons f ty rest).hasField g = rest.hasField g := by
  rw [Fields.hasField_cons, if_neg h]

theorem unknownPass_lookup_unknown {fs : Fields} {g : String} {w : JVal}
    (hg : fs.hasField g = false) {jo : JObj} (hw : jo.lookup g = some w) :
    (unknownPass fs jo).lookup g = some (.s "unknown") := by
  induction jo using JObj.objInduction with
  | nil => simp [JObj.lookup] at hw
  | cons k v rest ih =>
    by_cases hk : k = g
    · subst hk
      simp [unknownPass, hg, JObj.lookup]
    · simp only [JObj.lookup, if_neg hk] at hw
      cases hfk : fs.hasField k with
      | true => simpa only [unknownPass, hfk, if_pos] using ih hw
      | false =>
        simp only [unknownPass, hfk, Bool.false_eq_true, if_false, JObj.lookup,
          if_neg hk]
        exact ih hw

theorem unknownPass_lookup_none {fs : Fields} {g : String}
    (hg : fs.hasField g = true) (jo : JObj) :
    (unknownPass fs jo).lookup g = none := by
  induction jo using JObj.objInduction with
  | nil => rfl
  | cons k v rest ih =>
    cases hfk : fs.hasField k with
    | true => simpa only [unknownPass, hfk, if_pos] using ih
    | false =>
      have hk : ¬ (k = g) := fun h => by rw [h, hg] at hfk; cases hfk
      simp only [unknownPass, hfk, Bool.false_eq_true, if_false, JObj.lookup, if_neg hk]
      exact ih

theorem lookup_branch_ne {f g : String} (b : Bool) (x : JVal) (q2 : JObj)
    (h : ¬ f = g) :
    JObj.lookup g (if b = true then JObj.cons f x q2 else q2) = JObj.lookup g q2 := by
  cases b
  · simp
  · simp [JObj.lookup, if_neg h]

/-- Fields outside the schema are untouched by the per-field pass, and get no
delta entry from it. -/
theorem docFieldsPass_notin :
    ∀ (fs : Fields) (jo cur : JObj) (u : Bool) (g : String), g ∉ fs.names →
      (docFieldsPass fs jo cur u).1.lookup g = cur.lookup g ∧
      (docFieldsPass fs jo cur u).2.lookup g = none := by
  intro fs
  cases fs with
  | nil => intro jo cur u g _; exact ⟨rfl, rfl⟩
  | cons f ty rest =>
    intro jo cur u g hg
    simp only [Fields.names, List.mem_cons, not_or] at hg
    have hfg : ¬ (f = g) := fun h => hg.1 h.symm
    cases hjo : jo.lookup f with
    | some jv =>
      have h1 := docFieldsPass_notin rest jo
        (cur.set f (fieldFromJson ty jv (getattrD cur f ty) u).1) u g hg.2
      constructor
      · simp only [docFieldsPass, hjo]
        rw [h1.1, JObj.lookup_set_ne _ hfg]
      · simp only [docFieldsPass, hjo]
        rw [lookup_branch_ne _ _ _ hfg, h1.2]
    | none =>
      cases u with
      | true =>
        simpa only [docFieldsPass, hjo] using docFieldsPass_notin rest jo cur true g hg.2
      | false =>
        cases hck : cur.hasKey f with
        | true =>
          have h1 := docFieldsPass_notin rest jo (cur.erase f) false g hg.2
          constructor
          · simp only [docFieldsPass, hjo, hck, Bool.false_eq_true, if_false, if_true]
            rw [h1.1, JObj.lookup_erase_ne hfg]
          · simp only [docFieldsPass, hjo, hck, Bool.false_eq_true, if_false, if_true,
              JObj.lookup, if_neg hfg]
            exact h1.2
        | false =>
          simpa only [docFieldsPass, hjo, hck, Bool.false_eq_true, if_false]
            using docFieldsPass_notin rest jo cur false g hg.2
termination_by structural fs => fs

theorem Fields.lookup_eq_none_iff {g : String} {fs : Fields} :
    fs.lookup g = none ↔ g ∉ fs.names := by
  induction fs using Fields.fieldsInduction with
  | nil => simp [Fields.lookup, Fields.names]
  | cons f ty rest ih =>
    by_cases hf : f = g
    · simp [Fields.lookup, Fields.names, hf]
    · have hgf : ¬ g = f := fun h => hf h.symm
      simp [Fields.lookup, Fields.names, hf, hgf, ih]

theorem Fields.hasField_eq_false_iff {g : String} {fs : Fields} :
    fs.hasField g = false ↔ g ∉ fs.names := by
  rw [← Fields.lookup_eq_none_iff]
  unfold Fields.hasField
  cases h : fs.lookup g <;> simp [h]

/-- A schema field missing from the incoming document and populated in the
record is deleted and marked `'deleted'` (`updateMode` off). -/
theorem docFieldsPass_deleted :
    ∀ (fs : Fields) (jo cur : JObj), fs.names.Nodup → keysNodup cur = true →
      ∀ g, fs.hasField g = true → jo.lookup g = none → cur.hasKey g = true →
      (docFieldsPass fs jo cur false).2.lookup g = some (.s "deleted") ∧
      (docFieldsPass fs jo cur false).1.lookup g = none := by
  intro fs
  cases fs with
  | nil => intro jo cur _ _ g hg; simp [Fields.hasField, Fields.lookup] at hg
  | cons f ty rest =>
    intro jo cur hnod hcn g hg hjg hck
    have hnods := List.nodup_cons.mp (by simpa [Fields.names] using hnod)
    by_cases hfg : f = g
    · subst hfg
      simp only [docFieldsPass, hjg, hck, if_true]
      constructor
      · simp [JObj.lookup]
      · exact ((docFieldsPass_notin rest jo (cur.erase f) false f hnods.1).1).trans
          (JObj.lookup_erase_self hcn)
    · have hg' : rest.hasField g = true := by
        rwa [Fields.hasField_cons, if_neg hfg] at hg
      cases hjo : jo.lookup f with
      | some jv =>
        have ih := docFieldsPass_deleted rest jo
          (cur.set f (fieldFromJson ty jv (getattrD cur f ty) false).1) hnods.2
          (JObj.keysNodup_set _ hcn) g hg' hjg
          (by rw [JObj.hasKey_set_ne _ hfg]; exact hck)
        constructor
        · simp only [docFieldsPass, hjo]
          rw [lookup_branch_ne _ _ _ hfg]
          exact ih.1
        · simp only [docFieldsPass, hjo]
          exact ih.2
      | none =>
        cases hckf : cur.hasKey f with
        | true =>
          have ih := docFieldsPass_deleted rest jo (cur.erase f) hnods.2
            (JObj.keysNodup_erase _ hcn) g hg' hjg
            (by rw [JObj.hasKey_erase_ne hfg]; exact hck)
          constructor
          · simp only [docFieldsPass, hjo, hckf, Bool.false_eq_true, if_false, if_true,
              JObj.lookup, if_neg hfg]
            exact ih.1
          · simp only [docFieldsPass, hjo, hckf, Bool.false_eq_true, if_false, if_true]
            exact ih.2
        | false =>
          have ih := docFieldsPass_deleted rest jo cur hnods.2 hcn g hg' hjg hck
          simpa only [docFieldsPass, hjo, hckf, Bool.false_eq_true, if_false] using ih
termination_by structural fs => fs

/-- A schema field missing from the incoming document and not populated in
the record is skipped silently (`updateMode` off): no deletion, no marker. -/
theorem docFieldsPass_absent :
    ∀ (fs : Fields) (jo cur : JObj), fs.names.Nodup →
      ∀ g, fs.hasField g = true → jo.lookup g = none → cur.hasKey g = false →
      (docFieldsPass fs jo cur false).2.lookup g = none ∧
      (docFieldsPass fs jo cur false).1.lookup g = none := by
  intro fs
  cases fs with
  | nil => intro jo cur _ g hg; simp [Fields.hasField, Fields.lookup] at hg
  | cons f ty rest =>
    intro jo cur hnod g hg hjg hck
    have hnods := List.nodup_cons.mp (by simpa [Fields.names] using hnod)
    by_cases hfg : f = g
    · subst hfg
      simp only [docFieldsPass, hjg, hck, Bool.false_eq_true, if_false]
      have h1 := docFieldsPass_notin rest jo cur false f hnods.1
      exact ⟨h1.2, h1.1.trans (JObj.hasKey_eq_false_iff.mp hck)⟩
    · have hg' : rest.hasField g = true := by
        rwa [Fields.hasField_cons, if_neg hfg] at hg
      cases hjo : jo.lookup f with
      | some jv =>
        have ih := docFieldsPass_absent rest jo
          (cur.set f (fieldFromJson ty jv (getattrD cur f ty) false).1) hnods.2 g hg' hjg
          (by rw [JObj.hasKey_set_ne _ hfg]; exact hck)
        constructor
        · simp only [docFieldsPass, hjo]
          rw [lookup_branch_ne _ _ _ hfg]
          exact ih.1
        · simp only [docFieldsPass, hjo]
          exact ih.2
      | none =>
        cases hckf : cur.hasKey f with
        | true =>
          have ih := docFieldsPass_absent rest jo (cur.erase f) hnods.2 g hg' hjg
            (by rw [JObj.hasKey_erase_ne hfg]; exact hck)
          constructor
          · simp only [docFieldsPass, hjo, hckf, Bool.false_eq_true, if_false, if_true,
              JObj.lookup, if_neg hfg]
            exact ih.1
          · simp only [docFieldsPass, hjo, hckf, Bool.false_eq_true, if_false, if_true]
            exact ih.2
        | false =>
          have ih := docFieldsPass_absent rest jo cur hnods.2 g hg' hjg hck
          simpa only [docFieldsPass, hjo, hckf, Bool.false_eq_true, if_false] using ih
termination_by structural fs => fs

/-- With `updateMode` on, a schema field missing from the incoming document
is left untouched and gets no delta entry. -/
theorem docFieldsPass_update :
    ∀ (fs : Fields) (jo cur : JObj), fs.names.Nodup →
      ∀ g, fs.hasField g = true → jo.lookup g = none →
      (docFieldsPass fs jo cur true).1.lookup g = cur.lookup g ∧
      (docFieldsPass fs jo cur true).2.lookup g = none := by
  intro fs
  cases fs with
  | nil => intro jo cur _ g hg; simp [Fields.hasField, Fields.lookup] at hg
  | cons f ty rest =>
    intro jo cur hnod g hg hjg
    have hnods := List.nodup_cons.mp (by simpa [Fields.names] using hnod)
    by_cases hfg : f = g
    · subst hfg
      simp only [docFieldsPass, hjg]
      exact docFieldsPass_notin rest jo cur true f hnods.1
    · have hg' : rest.hasField g = true := by
        rwa [Fields.hasField_cons, if_neg hfg] at hg
      cases hjo : jo.lookup f with
      | some jv =>
        have ih := docFieldsPass_update rest jo
          (cur.set f (fieldFromJson ty jv (getattrD cur f ty) true).1) hnods.2 g hg' hjg
        constructor
        · simp only [docFieldsPass, hjo]
          rw [ih.1, JObj.lookup_set_ne _ hfg]
        · simp only [docFieldsPass, hjo]
          rw [lookup_branch_ne _ _ _ hfg]
          exact ih.2
      | none =>
        have ih := docFieldsPass_update rest jo cur hnods.2 g hg' hjg
        simpa only [docFieldsPass, hjo] using ih
termination_by structural fs => fs

/-- C4 amended: with `updateMode` off, each schema field that is absent from
the incoming document *and currently populated in the record* is deleted and
marked `"deleted"` in the returned delta; a schema field absent from both is
skipped silently (no marker — this is where the claim as stated fails, see
the counterexample); with `updateMode` on such fields are left untouched and
omitted from the delta; and every incoming key matching no schema field is
reported with marker `"unknown"`, leaving the record data untouched and
raising no error (the function is total). -/
theorem c4_absorb_markers (fs : Fields) (jo cur : JObj)
    (hnod : fieldsNodup fs = true) (hcur : keysNodup cur = true) :
    (∀ g, fs.hasField g = true → jo.lookup g = none → cur.hasKey g = true →
      (docFromJson fs jo cur false).2.lookup g = some (.s "deleted") ∧
      (docFromJson fs jo cur false).1.lookup g = none) ∧
    (∀ g, fs.hasField g = true → jo.lookup g = none → cur.hasKey g = false →
      (docFromJson fs jo cur false).2.lookup g = none ∧
      (docFromJson fs jo cur false).1.lookup g = none) ∧
    (∀ g, fs.hasField g = true → jo.lookup g = none →
      (docFromJson fs jo cur true).1.lookup g = cur.lookup g ∧
      (docFromJson fs jo cur true).2.lookup g = none) ∧
    (∀ (u : Bool) (g : String) (w : JVal), fs.hasField g = false → jo.lookup g = some w →
      (docFromJson fs jo cur u).2.lookup g = some (.s "unknown") ∧
      (docFromJson fs jo cur u).1.lookup g = cur.lookup g) := by
  have hnames : fs.names.Nodup := of_decide_eq_true hnod
  refine ⟨?_, ?_, ?_, ?_⟩
  · intro g hg hjg hck
    have h := docFieldsPass_deleted fs jo cur hnames hcur g hg hjg hck
    exact ⟨JObj.lookup_append_left _ h.1, h.2⟩
  · intro g hg hjg hck
    have h := docFieldsPass_absent fs jo cur hnames g hg hjg hck
    refine ⟨?_, h.2⟩
    rw [docFromJson]
    exact (JObj.lookup_append_right _ h.1).trans (unknownPass_lookup_none hg jo)
  · intro g hg hjg
    have h := docFieldsPass_update fs jo cur hnames g hg hjg
    refine ⟨h.1, ?_⟩
    rw [docFromJson]
    exact (JObj.lookup_append_right _ h.2).trans (unknownPass_lookup_none hg jo)
  · intro u g w hg hjw
    have hgn : g ∉ fs.names := Fields.hasField_eq_false_iff.mp hg
    have h := docFieldsPass_notin fs jo cur u g hgn
    refine ⟨?_, h.1⟩
    rw [docFromJson]
    exact (JObj.lookup_append_right _ h.2).trans (unknownPass_lookup_unknown hg hjw)

/-- C4 amended witness: in a record with schema `{name, age}` holding
`{name: "x", age: 3}`, absorbing `{name: "x", zzz: 1}` with `updateMode`
off deletes `age` with marker `"deleted"` and marks `zzz` `"unknown"`. -/
theorem c4_absorb_markers_witness :
    ((docFromJson (.cons "name" .scalar (.cons "age" .scalar .nil))
        (.cons "name" (.s "x") (.cons "zzz" (.i 1) .nil))
        (.cons "name" (.s "x") (.cons "age" (.i 3) .nil)) false).2.lookup "age"
      = some (.s "deleted") ∧
     (docFromJson (.cons "name" .scalar (.cons "age" .scalar .nil))
        (.cons "name" (.s "x") (.cons "zzz" (.i 1) .nil))
        (.cons "name" (.s "x") (.cons "age" (.i 3) .nil)) false).1.lookup "age"
      = none) ∧
    (docFromJson (.cons "name" .scalar (.cons "age" .scalar .nil))
        (.cons "name" (.s "x") (.cons "zzz" (.i 1) .nil))
        (.cons "name" (.s "x") (.cons "age" (.i 3) .nil)) false).2.lookup "zzz"
      = some (.s "unknown") :=
  ⟨(c4_absorb_markers (.cons "name" .scalar (.cons "age" .scalar .nil))
      (.cons "name" (.s "x") (.cons "zzz" (.i 1) .nil))
      (.cons "name" (.s "x") (.cons "age" (.i 3) .nil)) (by decide) (by decide)).1
      "age" (by decide) (by decide) (by decide),
   ((c4_absorb_markers (.cons "name" .scalar (.cons "age" .scalar .nil))
      (.cons "name" (.s "x") (.cons "zzz" (.i 1) .nil))
      (.cons "name" (.s "x") (.cons "age" (.i 3) .nil)) (by decide) (by decide)).2.2.2
      false "zzz" (.i 1) (by decide) (by decide)).1⟩

/-- C4 counterexample: the claim says absorb with `updateMode` off records a
`"deleted"` marker for *each* schema field absent from the incoming
document.  For a record whose `age` field was never populated, absorbing a
document without `age` produces an *empty* delta — no `"deleted"` marker. -/
theorem c4_absorb_counterexample :
    (docFromJson (.cons "name" .scalar (.cons "age" .scalar .nil))
        (.cons "name" (.s "x") .nil) (.cons "name" (.s "x") .nil) false)
      = (.cons "name" (.s "x") .nil, .nil) ∧
    (docFromJson (.cons "name" .scalar (.cons "age" .scalar .nil))
        (.cons "name" (.s "x") .nil) (.cons "name" (.s "x") .nil) false).2.lookup "age"
      = none :=
  ⟨by decide, by decide⟩

/-! ### C7 — applyPath errors -/

/-- C7: `applyPath` fails with the index-out-of-range error (Python
`IndexError`, spec `IndexOutOfRangeError`) whenever a list-index segment is
at least the current list length — terminal index segments only replace in
place, preserving the length, and non-terminal out-of-range indices fail the
same way before recursing — and fails with the unknown-field error (Python
`KeyError`, spec `UnknownFieldError`) when a name segment matches no field;
concretely, `applyPath(record, "history.0.tags.3", "pencil")` fails on a
record whose `tags` holds three elements and
`applyPath(record, "nonexistent", "x")` fails. -/
theorem c7_apply_path_errors (fs : Fields) (data : JObj) (f seg : String)
    (rest : List String) (v : JVal) :
    (fs.hasField f = false →
      setFieldDoc fs data (f :: rest) v = .error .unknownField) ∧
    (∀ e xs idx, Fields.lookup f fs = some (.lst e) →
      getattrD data f (.lst e) = .arr xs → natOfString seg = some idx →
      (xs.toList.length ≤ idx →
        setFieldDoc fs data [f, seg] v = .error .indexOutOfRange) ∧
      (idx < xs.toList.length →
        setFieldDoc fs data [f, seg] v
          = .ok (data.set f (.arr (JArr.ofList (xs.toList.set idx v)))) ∧
        (xs.toList.set idx v).length = xs.toList.length) ∧
      (rest ≠ [] → xs.toList.length ≤ idx →
        setFieldDoc fs data (f :: seg :: rest) v = .error .indexOutOfRange)) ∧
    applyPath exampleUserFields exampleUser "history.0.tags.3" (.s "pencil")
      = .error .indexOutOfRange ∧
    applyPath exampleUserFields exampleUser "nonexistent" (.s "x")
      = .error .unknownField := by
  refine ⟨?_, ?_, by decide, by decide⟩
  · intro hf
    have hlk : Fields.lookup f fs = none :=
      Fields.lookup_eq_none_iff.mpr (Fields.hasField_eq_false_iff.mp hf)
    cases rest with
    | nil => simp [setFieldDoc, hlk]
    | cons r rs => simp [setFieldDoc, hlk]
  · intro e xs idx hlk hget hnat
    refine ⟨?_, ?_, ?_⟩
    · intro hge
      simp [setFieldDoc, hlk, hget, hnat, Nat.not_lt.mpr hge]
    · intro hlt
      refine ⟨?_, List.length_set _ _ _⟩
      simp [setFieldDoc, hlk, hget, hnat, hlt]
    · intro hne hge
      cases rest with
      | nil => exact absurd rfl hne
      | cons r rs =>
        have hnone : xs.toList[idx]? = none := List.getElem?_eq_none hge
        simp [setFieldDoc, hlk, hget, hnat, hnone]

/-- C7 witness: a record with `tags = ["a", "b", "c"]` — an unknown field
errors, index 3 errors, index 1 replaces in place keeping the length. -/
theorem c7_apply_path_errors_witness :
    setFieldDoc (.cons "tags" (.lst .scalar) .nil)
        (.cons "tags" (.arr (.cons (.s "a") (.cons (.s "b") (.cons (.s "c") .nil)))) .nil)
        ["nope"] (.s "x")
      = .error .unknownField ∧
    setFieldDoc (.cons "tags" (.lst .scalar) .nil)
        (.cons "tags" (.arr (.cons (.s "a") (.cons (.s "b") (.cons (.s "c") .nil)))) .nil)
        ["tags", "3"] (.s "pencil")
      = .error .indexOutOfRange ∧
    setFieldDoc (.cons "tags" (.lst .scalar) .nil)
        (.cons "tags" (.arr (.cons (.s "a") (.cons (.s "b") (.cons (.s "c") .nil)))) .nil)
        ["tags", "1"] (.s "turkey")
      = .ok (JObj.set "tags"
          (.arr (JArr.ofList ([JVal.s "a", JVal.s "b", JVal.s "c"].set 1 (.s "turkey"))))
          (.cons "tags" (.arr (.cons (.s "a") (.cons (.s "b") (.cons (.s "c") .nil)))) .nil)) :=
  ⟨(c7_apply_path_errors (.cons "tags" (.lst .scalar) .nil)
      (.cons "tags" (.arr (.cons (.s "a") (.cons (.s "b") (.cons (.s "c") .nil)))) .nil)
      "nope" "0" [] (.s "x")).1 (by decide),
   ((c7_apply_path_errors (.cons "tags" (.lst .scalar) .nil)
      (.cons "tags" (.arr (.cons (.s "a") (.cons (.s "b") (.cons (.s "c") .nil)))) .nil)
      "tags" "3" [] (.s "pencil")).2.1 .scalar
      (.cons (.s "a") (.cons (.s "b") (.cons (.s "c") .nil))) 3
      (by decide) (by decide) (by decide)).1 (by decide),
   (((c7_apply_path_errors (.cons "tags" (.lst .scalar) .nil)
      (.cons "tags" (.arr (.cons (.s "a") (.cons (.s "b") (.cons (.s "c") .nil)))) .nil)
      "tags" "1" [] (.s "turkey")).2.1 .scalar
      (.cons (.s "a") (.cons (.s "b") (.cons (.s "c") .nil))) 1
      (by decide) (by decide) (by decide)).2.1 (by decide)).1⟩

/-- C8 amended witness: diffing `["a", "c"]` against `["a", "b"]`. -/
theorem c8_list_diff_added_removed_witness :
    (convJson .scalar (.s "c") ∉ ([JVal.s "a"] ++ [JVal.s "b"]).map (convJson .scalar)) ∧
    (convJson .scalar (.s "b") ∉ ([JVal.s "a"] ++ [JVal.s "c"]).map (convJson .scalar)) ∧
    fieldDeltas (.lst .scalar) (.arr (JArr.ofList ([JVal.s "a"] ++ [JVal.s "c"])))
        (.arr (JArr.ofList ([JVal.s "a"] ++ [JVal.s "b"])))
      = .cons "added" (.arr (.cons (convJson .scalar (.s "c")) .nil))
          (.cons "removed" (.arr (.cons (convJson .scalar (.s "b")) .nil))
            (consIf (toString ([JVal.s "a"]).length)
              (fieldDeltas .scalar (.s "c") (.s "b")) .nil)) :=
  ⟨by decide, by decide,
    (c8_list_diff_added_removed .scalar [JVal.s "a"] (.s "c") (.s "b")
      (by decide) (by decide)).2⟩


/-! ### C9 — marshal/unmarshal round trip -/

theorem JObj.lookup_set_self (f : String) (v : JVal) (d : JObj) :
    (d.set f v).lookup f = some v := by
  induction d using JObj.objInduction with
  | nil => simp [JObj.set, JObj.lookup]
  | cons k w rest ih =>
    by_cases hk : k = f
    · simp [JObj.set, JObj.lookup, hk]
    · simp [JObj.set, JObj.lookup, hk, ih]

theorem JArr.arrInduction {motive : JArr → Prop} (nil : motive .nil)
    (cons : ∀ x rest, motive rest → motive (.cons x rest)) : ∀ a, motive a := by
  intro a
  cases a with
  | nil => exact nil
  | cons x rest => exact cons x rest (JArr.arrInduction nil cons rest)
termination_by structural a => a

theorem JArr.map_eq_ofList (f : JVal → JVal) (a : JArr) :
    JArr.map f a = JArr.ofList (a.toList.map f) := by
  induction a using JArr.arrInduction with
  | nil => rfl
  | cons x rest ih => simp [JArr.map, JArr.toList, JArr.ofList, ih]

theorem JArr.all_mem {p : JVal → Bool} {a : JArr} (h : JArr.all p a = true) :
    ∀ x ∈ a.toList, p x = true := by
  induction a using JArr.arrInduction with
  | nil => simp [JArr.toList]
  | cons y rest ih =>
    simp only [JArr.all, Bool.and_eq_true] at h
    intro x hx
    rcases List.mem_cons.mp hx with hx | hx
    · rw [hx]; exact h.1
    · exact ih h.2 x hx

theorem zipFrom_roundtrip (g : JVal → JVal → JVal × JVal) (tj : JVal → JVal)
    (P : JVal → Bool) (hg : ∀ x, P x = true → tj (g (tj x) x).1 = tj x) :
    ∀ (l : List JVal), (∀ x ∈ l, P x = true) →
      ((zipFrom g (l.map tj) l).map Prod.fst).map tj = l.map tj := by
  intro l
  induction l with
  | nil => intro _; rfl
  | cons x rest ih =>
    intro hl
    simp only [List.map_cons, zipFrom]
    rw [hg x (hl x (List.mem_cons_self x rest))]
    rw [ih (fun y hy => hl y (List.mem_cons_of_mem x hy))]

theorem Fields.lookup_cons_self (f : String) (ty : FTy) (rest : Fields) :
    (Fields.cons f ty rest).lookup f = some ty := by
  simp [Fields.lookup]

theorem Fields.lookup_some_mem {g : String} {ty : FTy} {fs : Fields}
    (h : fs.lookup g = some ty) : g ∈ fs.names := by
  by_contra hg
  rw [Fields.lookup_eq_none_iff.mpr hg] at h
  cases h

theorem docToJson_lookup_notin {g : String} {fs : Fields} (d : JObj)
    (h : g ∉ fs.names) : (docToJson fs d).lookup g = none := by
  induction fs using Fields.fieldsInduction with
  | nil => rfl
  | cons f ty rest ih =>
    simp only [Fields.names, List.mem_cons, not_or] at h
    have hfg : ¬ (f = g) := fun hh => h.1 hh.symm
    cases hd : d.lookup f with
    | some v => simp only [docToJson, hd, JObj.lookup, if_neg hfg]; exact ih h.2
    | none => simp only [docToJson, hd]; exact ih h.2

theorem docToJson_lookup {g : String} {ty : FTy} {fs : Fields} (d : JObj)
    (hnod : fs.names.Nodup) (h : fs.lookup g = some ty) :
    (docToJson fs d).lookup g = (d.lookup g).map (fieldToJson ty) := by
  induction fs using Fields.fieldsInduction with
  | nil => cases h
  | cons f ty2 rest ih =>
    have hnods := List.nodup_cons.mp (by simpa [Fields.names] using hnod)
    by_cases hfg : f = g
    · subst hfg
      rw [Fields.lookup_cons_self] at h
      injection h with h
      subst h
      cases hd : d.lookup f with
      | some v => simp [docToJson, hd, JObj.lookup]
      | none =>
        simp only [docToJson, hd, Option.map_none']
        exact docToJson_lookup_notin d hnods.1
    · simp only [Fields.lookup, if_neg hfg] at h
      cases hd : d.lookup f with
      | some v =>
        simp only [docToJson, hd, JObj.lookup, if_neg hfg]
        exact ih hnods.2 h
      | none =>
        simp only [docToJson, hd]
        exact ih hnods.2 h

theorem docToJson_set_notin {f : String} {fs : Fields} (d : JObj) (w : JVal)
    (h : f ∉ fs.names) : docToJson fs (d.set f w) = docToJson fs d := by
  induction fs using Fields.fieldsInduction with
  | nil => rfl
  | cons n ty rest ih =>
    simp only [Fields.names, List.mem_cons, not_or] at h
    have hfn : ¬ (f = n) := h.1
    simp only [docToJson, JObj.lookup_set_ne w hfn]
    cases hd : d.lookup n with
    | some v => simp only [hd]; rw [ih h.2]
    | none => simp only [hd]; exact ih h.2

theorem wtFields_lookup {g : String} {ty : FTy} {fs : Fields} {d : JObj}
    (hwt : wtFields fs d = true) (h : fs.lookup g = some ty) :
    ∀ w, d.lookup g = some w → wtField ty w = true := by
  induction fs using Fields.fieldsInduction with
  | nil => cases h
  | cons f ty2 rest ih =>
    intro w hw
    simp only [wtFields, Bool.and_eq_true] at hwt
    by_cases hfg : f = g
    · subst hfg
      rw [Fields.lookup_cons_self] at h
      injection h with h
      subst h
      have := hwt.1
      rw [hw] at this
      exact this
    · simp only [Fields.lookup, if_neg hfg] at h
      exact ih hwt.2 h w hw

theorem wfFieldsTys_lookup {g : String} {ty : FTy} {fs : Fields}
    (hwf : wfFieldsTys fs = true) (h : fs.lookup g = some ty) :
    wfTy ty = true := by
  induction fs using Fields.fieldsInduction with
  | nil => cases h
  | cons f ty2 rest ih =>
    simp only [wfFieldsTys, Bool.and_eq_true] at hwf
    by_cases hfg : f = g
    · subst hfg
      rw [Fields.lookup_cons_self] at h
      injection h with h
      subst h
      exact hwf.1
    · simp only [Fields.lookup, if_neg hfg] at h
      exact ih hwf.2 h


mutual

/-- Absorbing a field's own marshalled value back into it yields a value
that marshals identically. -/
theorem fieldFromJson_roundtrip : ∀ (ty : FTy) (v : JVal),
    wfTy ty = true → wtField ty v = true →
    fieldToJson ty (fieldFromJson ty (fieldToJson ty v) v false).1 = fieldToJson ty v := by
  intro ty v hwf hwt
  cases ty with
  | scalar => rfl
  | lst e =>
    cases v with
    | arr xs =>
      have hwt' : ∀ x ∈ xs.toList, wtField e x = true :=
        JArr.all_mem (by simpa [wtField] using hwt)
      have hz := zipFrom_roundtrip (fun a c => fieldFromJson e a c false) (fieldToJson e)
        (wtField e) (fun x hx => fieldFromJson_roundtrip e x (by simpa [wfTy] using hwf) hx)
        xs.toList hwt'
      simp only [fieldToJson, fieldFromJson, asList, JArr.map_eq_ofList, JArr.toList_ofList,
        List.length_map, List.take_length, padNulls_length_self]
      rw [hz]
    | null => simp [wtField] at hwt
    | b v => simp [wtField] at hwt
    | i n => simp [wtField] at hwt
    | s v => simp [wtField] at hwt
    | obj o => simp [wtField] at hwt
  | doc fs =>
    cases v with
    | obj d =>
      have hco : (if truthy (.obj d) = true then d else JObj.nil) = d := by
        cases d with
        | nil => simp [truthy]
        | cons k w rest => simp [truthy]
      simp only [wfTy, Bool.and_eq_true] at hwf
      simp only [wtField, Bool.and_eq_true] at hwt
      have hnod : fs.names.Nodup := of_decide_eq_true hwf.1
      have hrt := docRT fs (docToJson fs d) d hnod (fun g ty2 hg =>
        ⟨wfFieldsTys_lookup hwf.2 hg, docToJson_lookup d hnod hg,
         fun w hw => wtFields_lookup hwt.1.1 hg w hw⟩)
      simp only [fieldToJson, fieldFromJson, hco]
      rw [hrt]
    | null => simp [wtField] at hwt
    | b v => simp [wtField] at hwt
    | i n => simp [wtField] at hwt
    | s v => simp [wtField] at hwt
    | arr xs => simp [wtField] at hwt
termination_by structural ty => ty

/-- The per-field absorb pass leaves the marshalled form unchanged when the
incoming document is the record's own marshalled form. -/
theorem docRT : ∀ (fs : Fields) (jo cur : JObj),
    fs.names.Nodup →
    (∀ g ty, fs.lookup g = some ty →
      wfTy ty = true ∧
      jo.lookup g = (cur.lookup g).map (fieldToJson ty) ∧
      (∀ w, cur.lookup g = some w → wtField ty w = true)) →
    docToJson fs (docFieldsPass fs jo cur false).1 = docToJson fs cur := by
  intro fs
  cases fs with
  | nil => intro jo cur _ _; rfl
  | cons f ty rest =>
    intro jo cur hnod hinv
    have hnods := List.nodup_cons.mp (by simpa [Fields.names] using hnod)
    have hf := hinv f ty (Fields.lookup_cons_self f ty rest)
    cases hcur : cur.lookup f with
    | some v =>
      have hjo : jo.lookup f = some (fieldToJson ty v) := by rw [hf.2.1, hcur]; rfl
      have hwtv := hf.2.2 v hcur
      have hgetattr : getattrD cur f ty = v := by simp [getattrD, hcur]
      have hrt := fieldFromJson_roundtrip ty v hf.1 hwtv
      have hinv' : ∀ g ty2, rest.lookup g = some ty2 → wfTy ty2 = true ∧
          jo.lookup g
            = ((cur.set f (fieldFromJson ty (fieldToJson ty v) v false).1).lookup g).map
                (fieldToJson ty2) ∧
          (∀ w, (cur.set f (fieldFromJson ty (fieldToJson ty v) v false).1).lookup g
              = some w → wtField ty2 w = true) := by
        intro g ty2 hg
        have hgmem := Fields.lookup_some_mem hg
        have hfg : ¬ (f = g) := fun h => hnods.1 (h ▸ hgmem)
        have hbase := hinv g ty2 (by simp [Fields.lookup, hfg, hg])
        rw [JObj.lookup_set_ne _ hfg]
        exact hbase
      have hih := docRT rest jo
        (cur.set f (fieldFromJson ty (fieldToJson ty v) v false).1) hnods.2 hinv'
      have hDf : (docFieldsPass rest jo
            (cur.set f (fieldFromJson ty (fieldToJson ty v) v false).1) false).1.lookup f
          = some (fieldFromJson ty (fieldToJson ty v) v false).1 := by
        rw [(docFieldsPass_notin rest jo _ false f hnods.1).1, JObj.lookup_set_self]
      simp only [docFieldsPass, hjo, hgetattr]
      simp only [docToJson, hDf, hcur]
      rw [hrt, hih, docToJson_set_notin _ _ hnods.1]
    | none =>
      have hjo : jo.lookup f = none := by rw [hf.2.1, hcur]; rfl
      have hhk : cur.hasKey f = false := JObj.hasKey_eq_false_iff.mpr hcur
      have hinv' : ∀ g ty2, rest.lookup g = some ty2 → wfTy ty2 = true ∧
          jo.lookup g = (cur.lookup g).map (fieldToJson ty2) ∧
          (∀ w, cur.lookup g = some w → wtField ty2 w = true) := by
        intro g ty2 hg
        have hgmem := Fields.lookup_some_mem hg
        have hfg : ¬ (f = g) := fun h => hnods.1 (h ▸ hgmem)
        exact hinv g ty2 (by simp [Fields.lookup, hfg, hg])
      have hih := docRT rest jo cur hnods.2 hinv'
      have hDf : (docFieldsPass rest jo cur false).1.lookup f = none := by
        rw [(docFieldsPass_notin rest jo cur false f hnods.1).1]
        exact hcur
      simp only [docFieldsPass, hjo, hhk, Bool.false_eq_true, if_false]
      simp only [docToJson, hDf, hcur]
      exact hih
termination_by structural fs => fs

end

/-- C9: absorbing the record's own marshalled document back into it
(`updateMode` off) and re-deriving the marshalled document yields an
identical document — marshal, unmarshal, marshal is idempotent. -/
theorem c9_marshal_roundtrip (fs : Fields) (d : JObj)
    (hwf : wfTy (.doc fs) = true) (hwt : wtField (.doc fs) (.obj d) = true) :
    docToJson fs (docFromJson fs (docToJson fs d) d false).1 = docToJson fs d := by
  simp only [wfTy, Bool.and_eq_true] at hwf
  simp only [wtField, Bool.and_eq_true] at hwt
  have hnod : fs.names.Nodup := of_decide_eq_true hwf.1
  exact docRT fs (docToJson fs d) d hnod (fun g ty2 hg =>
    ⟨wfFieldsTys_lookup hwf.2 hg, docToJson_lookup d hnod hg,
     fun w hw => wtFields_lookup hwt.1.1 hg w hw⟩)

/-- C9 witness: the example user record round-trips. -/
theorem c9_marshal_roundtrip_witness :
    wfTy (.doc exampleUserFields) = true ∧
    wtField (.doc exampleUserFields) (.obj exampleUser) = true ∧
    docToJson exampleUserFields
        (docFromJson exampleUserFields (docToJson exampleUserFields exampleUser)
          exampleUser false).1
      = docToJson exampleUserFields exampleUser :=
  ⟨by decide, by decide, c9_marshal_roundtrip exampleUserFields exampleUser
    (by decide) (by decide)⟩

/-! ## C10 — change tracking snapshots

Facts about the heap model of conjure/documents.py:18-21: reads are stable
under heap extension and under writes to other cells, initialisation and
deepcopy allocate only fresh cells above the current heap top, and the
copied cells read back the originals. -/

theorem readH_ext (h ext : Heap) (hv : HVal)
    (hok : ∀ a, hv = .ref a → a < h.length) :
    readH (h ++ ext) hv = readH h hv := by
  cases hv with
  | sc v => rfl
  | ref a =>
    simp only [readH]
    rw [List.getD_append h ext [] a (hok a rfl)]

theorem readH_set_ne (h : Heap) (i : Nat) (xs : List JVal) (hv : HVal)
    (hok : ∀ a, hv = .ref a → a ≠ i) :
    readH (h.set i xs) hv = readH h hv := by
  cases hv with
  | sc v => rfl
  | ref a =>
    simp only [readH]
    rw [List.getD_eq_getElem?_getD, List.getD_eq_getElem?_getD,
      List.getElem?_set_ne (Ne.symm (hok a rfl))]

theorem getD_concat_length (h : Heap) (c : List JVal) :
    (h ++ [c]).getD h.length [] = c := by
  rw [List.getD_eq_getElem?_getD]
  simp

theorem readDocH_congr (h1 h2 : Heap) :
    ∀ (d : HDoc), (∀ g hv, (g, hv) ∈ d → readH h1 hv = readH h2 hv) →
      readDocH h1 d = readDocH h2 d := by
  intro d
  induction d with
  | nil => intro _; rfl
  | cons p rest ih =>
    intro hc
    obtain ⟨g, hv⟩ := p
    simp only [readDocH]
    rw [hc g hv (List.mem_cons_self _ _), ih (fun g2 hv2 hm =>
      hc g2 hv2 (List.mem_cons_of_mem _ hm))]

theorem hdoc_mem_fst {d : HDoc} {g : String} {hv : HVal} (hm : (g, hv) ∈ d) :
    g ∈ d.map Prod.fst :=
  List.mem_map.mpr ⟨(g, hv), hm, rfl⟩

theorem refAddrs_of_mem : ∀ (d : HDoc) (g : String) (a : Nat),
    (g, .ref a) ∈ d → a ∈ refAddrs d := by
  intro d
  induction d with
  | nil => intro g a hm; exact absurd hm (List.not_mem_nil _)
  | cons p rest ih =>
    intro g a hm
    obtain ⟨g0, hv0⟩ := p
    rcases List.mem_cons.mp hm with he | hr
    · injection he with h1 h2
      subst h2
      simp [refAddrs]
    · cases hv0 with
      | sc v => simpa [refAddrs] using ih g a hr
      | ref a0 => simp [refAddrs, ih g a hr]

theorem hlookup_mem : ∀ (d : HDoc) (g : String) (v : HVal),
    hlookup g d = some v → (g, v) ∈ d := by
  intro d
  induction d with
  | nil => intro g v hl; exact absurd hl (by simp [hlookup])
  | cons p rest ih =>
    intro g v hl
    obtain ⟨k, w⟩ := p
    by_cases hk : k = g
    · subst hk
      simp [hlookup] at hl
      subst hl
      exact List.mem_cons_self _ _
    · simp only [hlookup, if_neg hk] at hl
      exact List.mem_cons_of_mem _ (ih g v hl)

theorem refAddrs_inj : ∀ (d : HDoc), (refAddrs d).Nodup →
    ∀ (f g : String) (a : Nat), (f, .ref a) ∈ d → (g, .ref a) ∈ d → f = g := by
  intro d
  induction d with
  | nil => intro _ f g a hf; exact absurd hf (List.not_mem_nil _)
  | cons p rest ih =>
    intro hnod f g a hf hg
    obtain ⟨g0, hv0⟩ := p
    cases hv0 with
    | sc v =>
      have hf2 : (f, HVal.ref a) ∈ rest := by
        rcases List.mem_cons.mp hf with he | hr
        · exact absurd he (by simp)
        · exact hr
      have hg2 : (g, HVal.ref a) ∈ rest := by
        rcases List.mem_cons.mp hg with he | hr
        · exact absurd he (by simp)
        · exact hr
      exact ih (by simpa [refAddrs] using hnod) f g a hf2 hg2
    | ref a0 =>
      simp only [refAddrs, List.nodup_cons] at hnod
      rcases List.mem_cons.mp hf with hef | hrf
      · injection hef with h1 h2
        injection h2 with h3
        rcases List.mem_cons.mp hg with heg | hrg
        · injection heg with h4 h5
          rw [h1, h4]
        · exact absurd (h3 ▸ refAddrs_of_mem rest g a hrg) hnod.1
      · rcases List.mem_cons.mp hg with heg | hrg
        · injection heg with h4 h5
          injection h5 with h6
          exact absurd (h6 ▸ refAddrs_of_mem rest f a hrf) hnod.1
        · exact ih hnod.2 f g a hrf hrg

theorem initDoc_fst : ∀ (init : List (String × HInit)) (h : Heap),
    (initDoc h init).2.map Prod.fst = init.map Prod.fst := by
  intro init
  induction init with
  | nil => intro h; rfl
  | cons p rest ih =>
    intro h
    obtain ⟨f, iv⟩ := p
    cases iv with
    | sc v => simp [initDoc, ih h]
    | li xs => simp [initDoc, ih (h ++ [xs])]

theorem initDoc_ext : ∀ (init : List (String × HInit)) (h : Heap),
    ∃ ext, (initDoc h init).1 = h ++ ext := by
  intro init
  induction init with
  | nil => intro h; exact ⟨[], by simp [initDoc]⟩
  | cons p rest ih =>
    intro h
    obtain ⟨f, iv⟩ := p
    cases iv with
    | sc v =>
      obtain ⟨ext, he⟩ := ih h
      exact ⟨ext, by simp [initDoc, he]⟩
    | li xs =>
      obtain ⟨ext, he⟩ := ih (h ++ [xs])
      exact ⟨[xs] ++ ext, by simp [initDoc, he]⟩

theorem initDoc_addr_bounds : ∀ (init : List (String × HInit)) (h : Heap) (a : Nat),
    a ∈ refAddrs (initDoc h init).2 →
      h.length ≤ a ∧ a < (initDoc h init).1.length := by
  intro init
  induction init with
  | nil => intro h a ha; exact absurd ha (by simp [initDoc, refAddrs])
  | cons p rest ih =>
    intro h a ha
    obtain ⟨f, iv⟩ := p
    cases iv with
    | sc v =>
      simp only [initDoc, refAddrs] at ha ⊢
      exact ih h a ha
    | li xs =>
      simp only [initDoc, refAddrs, List.mem_cons] at ha ⊢
      rcases ha with he | hr
      · subst he
        refine ⟨le_refl _, ?_⟩
        obtain ⟨ext, hext⟩ := initDoc_ext rest (h ++ [xs])
        rw [hext]
        simp only [List.length_append, List.length_cons, List.length_nil]
        omega
      · have := ih (h ++ [xs]) a hr
        simp only [List.length_append, List.length_cons, List.length_nil] at this
        exact ⟨by omega, this.2⟩

theorem initDoc_addrs_nodup : ∀ (init : List (String × HInit)) (h : Heap),
    (refAddrs (initDoc h init).2).Nodup := by
  intro init
  induction init with
  | nil => intro h; simp [initDoc, refAddrs]
  | cons p rest ih =>
    intro h
    obtain ⟨f, iv⟩ := p
    cases iv with
    | sc v =>
      simp only [initDoc, refAddrs]
      exact ih h
    | li xs =>
      simp only [initDoc, refAddrs]
      refine List.nodup_cons.mpr ⟨fun hmem => ?_, ih (h ++ [xs])⟩
      have := (initDoc_addr_bounds rest (h ++ [xs]) _ hmem).1
      simp only [List.length_append, List.length_cons, List.length_nil] at this
      omega

theorem deepcopyDoc_ext : ∀ (d : HDoc) (h : Heap),
    ∃ ext, (deepcopyDoc h d).1 = h ++ ext := by
  intro d
  induction d with
  | nil => intro h; exact ⟨[], by simp [deepcopyDoc]⟩
  | cons p rest ih =>
    intro h
    obtain ⟨f, hv⟩ := p
    cases hv with
    | sc v =>
      obtain ⟨ext, he⟩ := ih h
      exact ⟨ext, by simp [deepcopyDoc, he]⟩
    | ref a =>
      obtain ⟨ext, he⟩ := ih (h ++ [h.getD a []])
      refine ⟨[h.getD a []] ++ ext, ?_⟩
      simp only [deepcopyDoc]
      rw [he, List.append_assoc]

theorem deepcopyDoc_addr_bounds : ∀ (d : HDoc) (h : Heap) (a : Nat),
    a ∈ refAddrs (deepcopyDoc h d).2 →
      h.length ≤ a ∧ a < (deepcopyDoc h d).1.length := by
  intro d
  induction d with
  | nil => intro h a ha; exact absurd ha (by simp [deepcopyDoc, refAddrs])
  | cons p rest ih =>
    intro h a ha
    obtain ⟨f, hv⟩ := p
    cases hv with
    | sc v =>
      simp only [deepcopyDoc, refAddrs] at ha ⊢
      exact ih h a ha
    | ref a0 =>
      simp only [deepcopyDoc, refAddrs, List.mem_cons] at ha ⊢
      rcases ha with he | hr
      · subst he
        refine ⟨le_refl _, ?_⟩
        obtain ⟨ext, hext⟩ := deepcopyDoc_ext rest (h ++ [h.getD a0 []])
        rw [hext]
        simp only [List.length_append, List.length_cons, List.length_nil]
        omega
      · have := ih (h ++ [h.getD a0 []]) a hr
        simp only [List.length_append, List.length_cons, List.length_nil] at this
        exact ⟨by omega, this.2⟩

/-- Deepcopy correspondence: every field of the original document is found in
the copy under the same name, and the copied value reads back (through the
extended heap) exactly what the original read in the original heap. -/
theorem deepcopyDoc_corr : ∀ (d : HDoc) (h : Heap),
    (d.map Prod.fst).Nodup →
    (∀ a, a ∈ refAddrs d → a < h.length) →
    ∀ g hv, (g, hv) ∈ d →
      ∃ w, hlookup g (deepcopyDoc h d).2 = some w ∧
        readH (deepcopyDoc h d).1 w = readH h hv := by
  intro d
  induction d with
  | nil => intro h _ _ g hv hm; exact absurd hm (List.not_mem_nil _)
  | cons p rest ih =>
    intro h hnod hok g hv hm
    obtain ⟨g0, hv0⟩ := p
    simp only [List.map_cons, List.nodup_cons] at hnod
    cases hv0 with
    | sc v =>
      rcases List.mem_cons.mp hm with he | hr
      · injection he with h1 h2
        subst h1
        subst h2
        refine ⟨.sc v, ?_, rfl⟩
        simp [deepcopyDoc, hlookup]
      · have hg0 : ¬ (g0 = g) := fun he2 => hnod.1 (he2 ▸ hdoc_mem_fst hr)
        obtain ⟨w, hw, hr2⟩ :=
          ih h hnod.2 (fun a ha => hok a (by simpa [refAddrs] using ha)) g hv hr
        refine ⟨w, ?_, hr2⟩
        simp only [deepcopyDoc, hlookup]
        rw [if_neg hg0]
        exact hw
    | ref a0 =>
      rcases List.mem_cons.mp hm with he | hr
      · injection he with h1 h2
        subst h1
        subst h2
        refine ⟨.ref h.length, ?_, ?_⟩
        · simp [deepcopyDoc, hlookup]
        · simp only [deepcopyDoc]
          obtain ⟨ext, hext⟩ := deepcopyDoc_ext rest (h ++ [h.getD a0 []])
          rw [hext]
          simp only [readH]
          rw [List.getD_append (h ++ [h.getD a0 []]) ext [] h.length (by simp),
            getD_concat_length]
      · have hg0 : ¬ (g0 = g) := fun he2 => hnod.1 (he2 ▸ hdoc_mem_fst hr)
        have hok2 : ∀ a, a ∈ refAddrs rest → a < (h ++ [h.getD a0 []]).length := by
          intro a ha
          have := hok a (by simp [refAddrs, ha])
          simp only [List.length_append, List.length_cons, List.length_nil]
          omega
        obtain ⟨w, hw, hr2⟩ := ih (h ++ [h.getD a0 []]) hnod.2 hok2 g hv hr
        refine ⟨w, ?_, ?_⟩
        · simp only [deepcopyDoc, hlookup]
          rw [if_neg hg0]
          exact hw
        · simp only [deepcopyDoc]
          rw [hr2]
          refine readH_ext h [h.getD a0 []] hv (fun a hae => ?_)
          exact hok a (refAddrs_of_mem _ g a
            (hae ▸ List.mem_cons_of_mem (g0, HVal.ref a0) hr))

/-- A diff in which every live field has a base counterpart reading the same
value is empty. -/
theorem hDeltas_nil : ∀ (d : HDoc) (h : Heap) (b : HDoc),
    (∀ g hv, (g, hv) ∈ d → ∃ w, hlookup g b = some w ∧ readH h w = readH h hv) →
    hDeltas h b d = .nil := by
  intro d h b
  induction d with
  | nil => intro _; rfl
  | cons p rest ih =>
    intro hc
    obtain ⟨g, hv⟩ := p
    obtain ⟨w, hw, hr⟩ := hc g hv (List.mem_cons_self _ _)
    simp only [hDeltas, hw]
    rw [hr, fieldDeltas_self]
    simp only [consIf, if_pos rfl]
    exact ih (fun g2 hv2 hm => hc g2 hv2 (List.mem_cons_of_mem _ hm))

/-- A diff in which exactly one live field changed (against its base
counterpart) is the singleton dict carrying that field. -/
theorem hDeltas_single : ∀ (d : HDoc) (h : Heap) (b : HDoc) (f : String)
    (hvf wf : HVal) (D : JObj),
    (d.map Prod.fst).Nodup →
    (∀ g hv, (g, hv) ∈ d → g ≠ f →
      ∃ w, hlookup g b = some w ∧ readH h w = readH h hv) →
    (f, hvf) ∈ d →
    hlookup f b = some wf →
    fieldDeltas (hFieldTy hvf) (readH h hvf) (readH h wf) = D →
    D ≠ .nil →
    hDeltas h b d = .cons f (.obj D) .nil := by
  intro d h b f hvf wf D
  induction d with
  | nil => intro _ _ hm; exact absurd hm (List.not_mem_nil _)
  | cons p rest ih =>
    intro hnod hc hm hb hD hne
    obtain ⟨g0, hv0⟩ := p
    simp only [List.map_cons, List.nodup_cons] at hnod
    by_cases hg : g0 = f
    · subst hg
      have hv0e : hv0 = hvf := by
        rcases List.mem_cons.mp hm with he | hr
        · injection he with h1 h2
          exact h2.symm
        · exact absurd (hdoc_mem_fst hr) hnod.1
      subst hv0e
      simp only [hDeltas, hb]
      rw [hD]
      have hrest : hDeltas h b rest = .nil := by
        refine hDeltas_nil rest h b (fun g2 hv2 hm2 => ?_)
        have hg2 : g2 ≠ g0 := fun he => hnod.1 (he ▸ hdoc_mem_fst hm2)
        exact hc g2 hv2 (List.mem_cons_of_mem _ hm2) hg2
      rw [hrest]
      simp [consIf, hne]
    · obtain ⟨w, hw, hr⟩ := hc g0 hv0 (List.mem_cons_self _ _) hg
      simp only [hDeltas, hw]
      rw [hr, fieldDeltas_self]
      simp only [consIf, if_pos rfl]
      have hm2 : (f, hvf) ∈ rest := by
        rcases List.mem_cons.mp hm with he | hr2
        · injection he with h1 h2
          exact absurd h1.symm hg
        · exact hr2
      exact ih hnod.2 (fun g2 hv2 hmm hg2 => hc g2 hv2 (List.mem_cons_of_mem _ hmm) hg2)
        hm2 hb hD hne

/-- Construction correspondence of conjure/documents.py:18-21: immediately
after construction, every field of the live record has a snapshot
counterpart whose value reads back identically through the final heap. -/
theorem newDoc_corr (h0 : Heap) (init : List (String × HInit))
    (hn : (init.map Prod.fst).Nodup) :
    ∀ g hv, (g, hv) ∈ (newDoc h0 init).2.data →
      ∃ w, hlookup g (newDoc h0 init).2.base = some w ∧
        readH (newDoc h0 init).1 w = readH (newDoc h0 init).1 hv := by
  have hdata : (newDoc h0 init).2.data = (initDoc h0 init).2 := rfl
  have hbase : (newDoc h0 init).2.base
      = (deepcopyDoc (initDoc h0 init).1 (initDoc h0 init).2).2 := rfl
  have hheap : (newDoc h0 init).1
      = (deepcopyDoc (initDoc h0 init).1 (initDoc h0 init).2).1 := rfl
  intro g hv hm
  rw [hdata] at hm
  rw [hbase, hheap]
  have hnod : ((initDoc h0 init).2.map Prod.fst).Nodup := by
    rw [initDoc_fst]; exact hn
  have hok : ∀ a, a ∈ refAddrs (initDoc h0 init).2 → a < (initDoc h0 init).1.length :=
    fun a ha => (initDoc_addr_bounds init h0 a ha).2
  obtain ⟨w, hw, hr⟩ :=
    deepcopyDoc_corr (initDoc h0 init).2 (initDoc h0 init).1 hnod hok g hv hm
  refine ⟨w, hw, ?_⟩
  rw [hr]
  obtain ⟨ext, hext⟩ := deepcopyDoc_ext (initDoc h0 init).2 (initDoc h0 init).1
  rw [hext, readH_ext (initDoc h0 init).1 ext hv (fun a hae =>
    hok a (refAddrs_of_mem _ g a (hae ▸ hm)))]

theorem asList_ofList (l : List JVal) : asList (.arr (JArr.ofList l)) = l := by
  simp [asList, JArr.toList_ofList]

/-- One appended element: the list diff of old ++ [x] against old. -/
theorem fieldDeltas_append_one (x : JVal) (old : List JVal) (hx : x ∉ old) :
    fieldDeltas (.lst .scalar) (.arr (JArr.ofList (old ++ [x])))
        (.arr (JArr.ofList old))
      = .cons "added" (.arr (.cons x .nil)) (.cons "removed" (.arr .nil)
          (consIf (toString old.length) (fieldDeltas .scalar x .null) .nil)) := by
  have hconv1 : ∀ (y : JVal), convJson .scalar y = y := fun y => rfl
  have hconv : ∀ (l : List JVal), l.map (convJson .scalar) = l := by
    intro l
    induction l with
    | nil => rfl
    | cons y ys ih => simp [hconv1, ih]
  have hct : truthy (.arr (JArr.ofList (old ++ [x]))) = true :=
    truthy_arr_ofList (by simp)
  have hbs : (if truthy (JVal.arr (JArr.ofList old)) = true
      then asList (JVal.arr (JArr.ofList old)) else []) = old := by
    cases old with
    | nil => rfl
    | cons y ys =>
      rw [if_pos (truthy_arr_ofList (by simp))]
      exact asList_ofList _
  simp only [fieldDeltas, hct, if_true]
  rw [hbs]
  simp only [asList_ofList, hconv, hconv1]
  have hadd : (old ++ [x]).filter (fun y => decide (y ∉ old)) = [x] := by
    rw [List.filter_append]
    have h1 : old.filter (fun y => decide (y ∉ old)) = [] :=
      List.filter_eq_nil_iff.mpr (fun y hy => by simp [hy])
    have h2 : [x].filter (fun y => decide (y ∉ old)) = [x] := by
      simp [hx]
    rw [h1, h2]
    rfl
  have hrem : old.filter (fun y => decide (y ∉ old ++ [x])) = [] :=
    List.filter_eq_nil_iff.mpr (fun y hy => by simp [List.mem_append, hy])
  rw [hadd, hrem]
  have hcond : ¬([x] = [] ∧ ([] : List JVal) = []) := by simp
  rw [if_neg hcond]
  have hlen : (old ++ [x]).length ⊔ old.length = old.length + 1 := by
    simp only [List.length_append, List.length_cons, List.length_nil]
    omega
  rw [hlen]
  have hpc : padNulls (old ++ [x]) (old.length + 1) = old ++ [x] := by
    simp [padNulls, List.length_append]
  have hpb : padNulls old (old.length + 1) = old ++ [JVal.null] := by
    have h1 : old.length + 1 - old.length = 1 := by omega
    simp [padNulls, h1]
  rw [hpc, hpb]
  rw [pairIdx_append_last _ x JVal.null (fun v => by simp) old 0]
  simp only [Nat.zero_add]
  simp [JObj.append, JArr.ofList]

/-- C10: under track_changes, construction stores a deep-copied snapshot that
shares no mutable container with the live record: (a) a diff taken
immediately after construction is empty; (b) no list cell of the live record
is held by the snapshot; (c) an in-place append to a list field of the live
record leaves every snapshot value unchanged; and (d) a diff taken after the
append reports exactly that append for that field alone — the appended
element under added, nothing removed, and the index-wise entry for the new
position. -/
theorem c10_track_changes_snapshot (h0 : Heap) (init : List (String × HInit))
    (hn : (init.map Prod.fst).Nodup) :
    hDeltas (newDoc h0 init).1 (newDoc h0 init).2.base (newDoc h0 init).2.data
        = .nil ∧
    (∀ a, a ∈ refAddrs (newDoc h0 init).2.data →
      a ∉ refAddrs (newDoc h0 init).2.base) ∧
    (∀ f x, readDocH (appendToList (newDoc h0 init).1 (newDoc h0 init).2.data f x)
        (newDoc h0 init).2.base
      = readDocH (newDoc h0 init).1 (newDoc h0 init).2.base) ∧
    (∀ f x a, hlookup f (newDoc h0 init).2.data = some (.ref a) →
      x ∉ (newDoc h0 init).1.getD a [] →
      hDeltas (appendToList (newDoc h0 init).1 (newDoc h0 init).2.data f x)
          (newDoc h0 init).2.base (newDoc h0 init).2.data
        = .cons f (.obj (.cons "added" (.arr (.cons x .nil))
            (.cons "removed" (.arr .nil)
              (consIf (toString ((newDoc h0 init).1.getD a []).length)
                (fieldDeltas .scalar x .null) .nil)))) .nil) := by
  have hdata : (newDoc h0 init).2.data = (initDoc h0 init).2 := rfl
  have hbase : (newDoc h0 init).2.base
      = (deepcopyDoc (initDoc h0 init).1 (initDoc h0 init).2).2 := rfl
  have hheap : (newDoc h0 init).1
      = (deepcopyDoc (initDoc h0 init).1 (initDoc h0 init).2).1 := rfl
  obtain ⟨ext, hext⟩ := deepcopyDoc_ext (initDoc h0 init).2 (initDoc h0 init).1
  have hlen : (initDoc h0 init).1.length ≤ (newDoc h0 init).1.length := by
    rw [hheap, hext]
    simp
  have hdisj : ∀ a, a ∈ refAddrs (newDoc h0 init).2.data →
      a ∉ refAddrs (newDoc h0 init).2.base := by
    intro a hda hba
    rw [hdata] at hda
    rw [hbase] at hba
    have h1 := (initDoc_addr_bounds init h0 a hda).2
    have h2 := (deepcopyDoc_addr_bounds (initDoc h0 init).2 (initDoc h0 init).1 a hba).1
    omega
  have hand : (refAddrs (newDoc h0 init).2.data).Nodup := by
    rw [hdata]
    exact initDoc_addrs_nodup init h0
  have hcorr := newDoc_corr h0 init hn
  refine ⟨hDeltas_nil _ _ _ hcorr, hdisj, ?_, ?_⟩
  · intro f x
    cases hm : hlookup f (newDoc h0 init).2.data with
    | none => simp [appendToList, hm]
    | some hv =>
      cases hv with
      | sc v => simp [appendToList, hm]
      | ref a =>
        simp only [appendToList, hm]
        refine readDocH_congr _ _ _ (fun g w hw => ?_)
        refine readH_set_ne _ _ _ _ (fun a1 hae he => ?_)
        have hwmem : (g, HVal.ref a1) ∈ (newDoc h0 init).2.base := hae ▸ hw
        have hda : a ∈ refAddrs (newDoc h0 init).2.data :=
          refAddrs_of_mem _ f a (hlookup_mem _ f _ hm)
        exact hdisj a hda (he ▸ refAddrs_of_mem _ g a1 hwmem)
  · intro f x a hf hx
    have hmem : (f, HVal.ref a) ∈ (newDoc h0 init).2.data := hlookup_mem _ f _ hf
    have hda : a ∈ refAddrs (newDoc h0 init).2.data := refAddrs_of_mem _ f a hmem
    have haH : a < (newDoc h0 init).1.length := by
      have hb := (initDoc_addr_bounds init h0 a (hdata ▸ hda)).2
      omega
    obtain ⟨wf, hwf, hrwf⟩ := hcorr f (.ref a) hmem
    have hnodd : ((newDoc h0 init).2.data.map Prod.fst).Nodup := by
      rw [hdata, initDoc_fst]
      exact hn
    simp only [appendToList, hf]
    refine hDeltas_single _ _ _ f (.ref a) wf _ hnodd ?_ hmem hwf ?_ (by simp [consIf])
    · intro g hv hm2 hg
      obtain ⟨w, hw, hr⟩ := hcorr g hv hm2
      refine ⟨w, hw, ?_⟩
      have h1 : ∀ a1, w = HVal.ref a1 → a1 ≠ a := by
        intro a1 hae he
        have hwmem : (g, HVal.ref a1) ∈ (newDoc h0 init).2.base :=
          hae ▸ hlookup_mem _ g _ hw
        exact hdisj a hda (he ▸ refAddrs_of_mem _ g a1 hwmem)
      have h2 : ∀ a1, hv = HVal.ref a1 → a1 ≠ a := by
        intro a1 hae he
        have hvmem : (g, HVal.ref a1) ∈ (newDoc h0 init).2.data := hae ▸ hm2
        exact hg (refAddrs_inj _ hand g f a (he ▸ hvmem) hmem)
      rw [readH_set_ne _ _ _ _ h1, readH_set_ne _ _ _ _ h2, hr]
    · have hwne : ∀ a1, wf = HVal.ref a1 → a1 ≠ a := by
        intro a1 hae he
        have hwmem : (f, HVal.ref a1) ∈ (newDoc h0 init).2.base :=
          hae ▸ hlookup_mem _ f _ hwf
        exact hdisj a hda (he ▸ refAddrs_of_mem _ f a1 hwmem)
      have hset : readH ((newDoc h0 init).1.set a ((newDoc h0 init).1.getD a [] ++ [x]))
          (HVal.ref a)
          = .arr (JArr.ofList ((newDoc h0 init).1.getD a [] ++ [x])) := by
        simp only [readH]
        rw [List.getD_eq_getElem?_getD, List.getElem?_set_self haH]
        rfl
      have hbv : readH ((newDoc h0 init).1.set a ((newDoc h0 init).1.getD a [] ++ [x])) wf
          = .arr (JArr.ofList ((newDoc h0 init).1.getD a [])) := by
        rw [readH_set_ne _ _ _ _ hwne, hrwf]
        rfl
      rw [hset, hbv]
      exact fieldDeltas_append_one x _ hx

/-- C10 witness: the concrete tracked record built from exampleInit has an
empty post-construction diff, and after appending item3 in place, the diff
has exactly the item_ids entry in the claimed shape. -/
theorem c10_track_changes_snapshot_witness :
    (exampleInit.map Prod.fst).Nodup ∧
    hlookup "item_ids" (newDoc [] exampleInit).2.data = some (.ref 0) ∧
    JVal.s "item3" ∉ (newDoc [] exampleInit).1.getD 0 [] ∧
    hDeltas (newDoc [] exampleInit).1 (newDoc [] exampleInit).2.base
        (newDoc [] exampleInit).2.data = .nil ∧
    hDeltas (appendToList (newDoc [] exampleInit).1 (newDoc [] exampleInit).2.data
          "item_ids" (.s "item3"))
        (newDoc [] exampleInit).2.base (newDoc [] exampleInit).2.data
      = .cons "item_ids" (.obj (.cons "added" (.arr (.cons (.s "item3") .nil))
          (.cons "removed" (.arr .nil)
            (consIf (toString ((newDoc [] exampleInit).1.getD 0 []).length)
              (fieldDeltas .scalar (.s "item3") .null) .nil)))) .nil :=
  ⟨by decide, by decide, by decide,
    (c10_track_changes_snapshot [] exampleInit (by decide)).1,
    (c10_track_changes_snapshot [] exampleInit (by decide)).2.2.2 "item_ids"
      (.s "item3") 0 (by decide) (by decide)⟩

end Conjure
